import Mathlib

/-!
Verification of the cmake-server protocol client core of this repository.

The development shallowly embeds the relevant parts of the TypeScript
source:

* the framing codec of `CMakeServerClient._onMoreData` / `sendRequest`
  (message wrapper regex, accumulated input buffer, frame dispatch loop);
* the cookie correlation table of `CMakeServerClient._onMessage`;
* the startup state machine of `CMakeServerClient.start` (crash callback,
  hello/handshake settlement, `resolved` flag);
* the backend operations `ServerClientCMakeTools.configure`,
  `_refreshAfterConfigure`, the `targets` getter, and
  `CMake.getAllTargetName`;
* the factory path `ServerClientCMakeToolsFactory.initializeNew` together
  with its caller `startBackendForNewProject`.

Buffers and payloads are modelled as `List Char` (the pipe carries UTF-8
text; `data.toString()` accumulates into a JS string).  JSON values are
kept opaque: a serialized payload is a `List Char`, and `JSON.parse` of a
captured frame body is modelled by stripping the surrounding whitespace
that `JSON.parse` ignores (`jsonParse` below).  JS objects handled by
`_onMessage` are modelled as association lists from field name to field
value (`JsObj`), which is enough to express field access (`some.type`,
`some.cookie`, ...) and the identity of the resolved value.
-/

/-! ### Framing codec (`_onMoreData`, `sendRequest` wire writes) -/

/-- Whitespace test for the `\s*` part of `MESSAGE_WRAPPER_RE` and for the
leading/trailing whitespace that `JSON.parse` ignores (restricted to the
ASCII whitespace characters that actually occur on this wire). -/
def isWs (c : Char) : Bool :=
  c == ' ' || c == '\t' || c == '\n' || c == '\r'

/-- The start marker line of the cmake-server message wrapper, i.e. the
literal matched by `\[== "CMake Server" ==\[` in `MESSAGE_WRAPPER_RE` and
written by `sendRequest`. -/
def startMarker : List Char := ("[== \"CMake Server\" ==[").toList

/-- The end marker line of the cmake-server message wrapper, i.e. the
literal matched by `\]== "CMake Server" ==\]` in `MESSAGE_WRAPPER_RE` and
written by `sendRequest`. -/
def endMarker : List Char := ("]== \"CMake Server\" ==]").toList

/-- `isPre pat s` holds when `pat` is a prefix of `s` (plain boolean
prefix test on character lists). -/
def isPre : List Char → List Char → Bool
  | [], _ => true
  | _ :: _, [] => false
  | a :: as, b :: bs => a == b && isPre as bs

/-- `splitFirst pat s` finds the leftmost occurrence of `pat` in `s`,
returning the part strictly before the occurrence and the part strictly
after it.  This is the list-level counterpart of what a regex engine does
when it matches the literal `pat` at the leftmost possible position. -/
def splitFirst (pat : List Char) : List Char → Option (List Char × List Char)
  | [] => if isPre pat [] then some ([], []) else none
  | c :: rest =>
    if isPre pat (c :: rest) then some ([], (c :: rest).drop pat.length)
    else (splitFirst pat rest).map fun pr => (c :: pr.1, pr.2)

/-- Strip leading and trailing whitespace.  Models the tolerance of
`JSON.parse` for whitespace around the serialized payload inside a frame
(the captured group 1 of `MESSAGE_WRAPPER_RE` contains the newline before
and after the payload). -/
def trimWs (l : List Char) : List Char :=
  ((l.dropWhile isWs).reverse.dropWhile isWs).reverse

/-- Model of `JSON.parse` applied to a captured frame body: for an opaque
serialized payload this just removes the surrounding whitespace. -/
def jsonParse (content : List Char) : List Char := trimWs content

/-- Result of running the `_onMoreData` dispatch loop on a buffer:
the messages dispatched to `_onMessage` in order, the remaining
accumulated input (`_accInput`), and whether the loop threw the
`Protocol error talking to CMake!` exception (reached only when the
captured content group is the empty string). -/
structure DrainResult where
  msgs : List (List Char)
  rest : List Char
  err : Bool
  deriving DecidableEq, Repr

/-- Fuel-indexed version of the `while (1)` dispatch loop of
`_onMoreData`: repeatedly match `MESSAGE_WRAPPER_RE` against the
accumulated input; on a match, dispatch `JSON.parse` of the content group
and continue on the tail group (everything after the end marker and the
greedy `\s*`); stop without consuming anything when there is no match.
The regex matches iff the buffer contains the start marker somewhere and
the end marker after it; the content group is the (lazy) text between the
first such pair, and the tail group drops the whitespace right after the
end marker.  The fuel only serves termination; `drain` below instantiates
it so that it never runs out. -/
def drainF : Nat → List Char → DrainResult
  | 0, s => ⟨[], s, false⟩
  | fuel + 1, s =>
    match splitFirst startMarker s with
    | none => ⟨[], s, false⟩
    | some (_pre, rest) =>
      match splitFirst endMarker rest with
      | none => ⟨[], s, false⟩
      | some (content, tail) =>
        if content = [] then ⟨[], s, true⟩
        else
          let r := drainF fuel (tail.dropWhile isWs)
          ⟨jsonParse content :: r.msgs, r.rest, r.err⟩

/-- The `_onMoreData` dispatch loop on a buffer.  Each successful match
consumes at least the two markers, so `s.length + 1` units of fuel always
suffice (`drain_eq` below proves the intended unfolding). -/
def drain (s : List Char) : DrainResult :=
  drainF (s.length + 1) s

/-- One `data` event: the chunk is appended to `_accInput` and the
dispatch loop runs on the accumulated input. -/
def onMoreData (acc : List Char) (chunk : List Char) : DrainResult :=
  drain (acc ++ chunk)

/-- Deliver a sequence of chunks to the client, starting from accumulated
input `acc`, collecting all dispatched messages in order. -/
def feedAll (acc : List Char) : List (List Char) → DrainResult
  | [] => ⟨[], acc, false⟩
  | c :: cs =>
    let r := onMoreData acc c
    let rr := feedAll r.rest cs
    ⟨r.msgs ++ rr.msgs, rr.rest, r.err || rr.err⟩

/-- The frame body between the leading newline and the trailing newline:
start marker, newline, payload, newline, end marker. -/
def frameCore (p : List Char) : List Char :=
  startMarker ++ '\n' :: p ++ '\n' :: endMarker

/-- `encode p` is the exact byte/char sequence `sendRequest` writes to the
pipe for a serialized payload `p`:
`"\n[== \"CMake Server\" ==[\n"`, then the payload, then
`"\n]== \"CMake Server\" ==]\n"`. -/
def encode (p : List Char) : List Char :=
  '\n' :: frameCore p ++ ['\n']

/-- A list made only of whitespace characters. -/
def IsAllWs (l : List Char) : Prop := ∀ c ∈ l, isWs c = true

/-- Side conditions satisfied by every serialized JSON payload
(`JSON.stringify` output): it is nonempty, does not start or end with
whitespace, and does not contain the end marker as a substring (inside
`JSON.stringify` output a raw `"` only delimits string literals, so the
marker text `]== "CMake Server" ==]` cannot occur).  These are exactly
the facts about JSON serialization the codec relies on. -/
def goodPayload (p : List Char) : Prop :=
  splitFirst endMarker p = none ∧ p ≠ [] ∧
    (p.head?.all fun c => !isWs c) = true ∧
    (p.getLast?.all fun c => !isWs c) = true

instance (p : List Char) : Decidable (goodPayload p) := by
  unfold goodPayload; infer_instance

/-- The whitespace between the end marker of one frame and the start
marker of the next (`\n` closing the current frame, then `\n` opening the
next one), or just the closing `\n` after the last frame. -/
def wsSep : List (List Char) → List Char
  | [] => ['\n']
  | _ :: _ => ['\n', '\n']

/-- The concatenated frames for payloads `ps`, starting directly at the
first start marker (the leading `\n` of the first frame is treated as
whitespace in front of it). -/
def chain : List (List Char) → List Char
  | [] => []
  | p :: ps => frameCore p ++ wsSep ps ++ chain ps

/-! ### Correlation table and `_onMessage` dispatch -/

/-- A JS object as seen by `_onMessage`: an association list from field
name to (opaque) field value.  Field access `o.f` is `getField o "f"`;
`'f' in o` is `(getField o "f").isSome`. -/
abbrev JsObj : Type := List (String × String)

/-- First-match field lookup in a `JsObj`. -/
def getField : JsObj → String → Option String
  | [], _ => none
  | (k, v) :: rest, key => if k = key then some v else getField rest key

/-- Field lookup defaulting to the empty value (models reading a field
that may be `undefined` on a malformed message). -/
def getFieldD (o : JsObj) (k : String) : String := (getField o k).getD ""

/-- One entry of `_promisesResolvers`: the `resolve`/`reject`
continuations are identified by the id of the pending promise, and the
optional `progress`/`message` observers by presence flags. -/
structure Handler where
  id : Nat
  hasProgress : Bool
  hasMessage : Bool
  deriving DecidableEq, Repr

/-- The correlation table `_promisesResolvers : Map<string, callbacks>`,
as an association list keyed by cookie (a JS `Map` has unique keys). -/
abbrev Table : Type := List (String × Handler)

/-- `Map.get` on the correlation table. -/
def lookupTable : Table → String → Option Handler
  | [], _ => none
  | (k, h) :: rest, c => if k = c then some h else lookupTable rest c

/-- `Map.delete` on the correlation table. -/
def removeKey (t : Table) (c : String) : Table :=
  List.filter (fun e => e.1 != c) t

/-- `Map.set` on the correlation table (replaces an existing entry for
the cookie, otherwise appends). -/
def mapSet (t : Table) (c : String) (h : Handler) : Table :=
  if (lookupTable t c).isSome then
    List.map (fun e => if e.1 = c then (c, h) else e) t
  else t ++ [(c, h)]

/-- The typed server error built by the `error` branch of `_onMessage`:
`ServerError` copies `errorMessage`, `cookie` and `inReplyTo` from the
error message. -/
structure SrvErr where
  errorMessage : String
  cookie : String
  inReplyTo : String
  deriving DecidableEq, Repr

/-- Observable side effects of one `_onMessage` call. -/
inductive Effect where
  /-- `handler.resolve(value)` was invoked for the promise `id`. -/
  | resolveP (id : Nat) (value : JsObj)
  /-- `handler.reject(err)` was invoked for the promise `id`. -/
  | rejectP (id : Nat) (err : SrvErr)
  /-- the optional `progress` observer was invoked. -/
  | progressCb (id : Nat) (value : JsObj)
  /-- the optional `message` observer was invoked. -/
  | messageCb (id : Nat) (value : JsObj)
  /-- `log.verbose("Received message with invalid cookie ...")`. -/
  | logDropped
  /-- the `onHello` callback was scheduled. -/
  | helloCb
  /-- the `onDirty` callback was scheduled. -/
  | dirtyCb
  /-- fell through to `console.warn("Can't yet handle the ... messages")`. -/
  | warnUnhandled
  deriving DecidableEq

/-- The cookie-correlation part of `_onMessage`: reached for every
message that is not a `hello` and not a recognized `signal`.  Looks the
cookie up; a missing handler is logged and dropped; `reply`/`error`
remove the entry and settle the promise with the full message object /
a `ServerError`; `progress`/`message` invoke the optional observer
without removing the entry; any other cookied type falls through to the
final `console.warn`. -/
def cookieDispatch (t : Table) (m : JsObj) : Table × List Effect :=
  match getField m "cookie" with
  | none => (t, [.warnUnhandled])
  | some c =>
    match lookupTable t c with
    | none => (t, [.logDropped])
    | some h =>
      match getField m "type" with
      | some "reply" => (removeKey t c, [.resolveP h.id m])
      | some "error" =>
          (removeKey t c,
           [.rejectP h.id ⟨getFieldD m "errorMessage", c, getFieldD m "inReplyTo"⟩])
      | some "progress" => (t, if h.hasProgress then [.progressCb h.id m] else [])
      | some "message" => (t, if h.hasMessage then [.messageCb h.id m] else [])
      | _ => (t, [.warnUnhandled])

/-- `CMakeServerClient._onMessage`: `hello` and the recognized `signal`
names return early; a `signal` with an unrecognized name falls through
(the inner switch has no default) to the cookie dispatch, like every
other message type. -/
def onMessageModel (t : Table) (m : JsObj) : Table × List Effect :=
  match getField m "type" with
  | some "hello" => (t, [.helloCb])
  | some "signal" =>
    match getField m "name" with
    | some "dirty" => (t, [.dirtyCb])
    | some "fileChange" => (t, [])
    | _ => cookieDispatch t m
  | _ => cookieDispatch t m

/-- Deliver a sequence of parsed messages to `_onMessage`, threading the
correlation table and collecting the effects in order. -/
def runMessages (t : Table) : List JsObj → Table × List Effect
  | [] => (t, [])
  | m :: rest =>
    let r := onMessageModel t m
    let rr := runMessages r.1 rest
    (rr.1, r.2 ++ rr.2)

/-- `CMakeServerClient.sendRequest`: register the handler under a fresh
cookie and build the outbound message `{...params, type, cookie}` (the
envelope fields are listed first here; `getField` lookup makes them win
over a homonymous field of `params`, matching the JS spread override). -/
def sendRequestModel (t : Table) (reqType : String) (params : JsObj)
    (cookie : String) (h : Handler) : Table × JsObj :=
  (mapSet t cookie h, ("type", reqType) :: ("cookie", cookie) :: params)

/-! ### Startup handshake (`CMakeServerClient.start`) -/

/-- A settlement attempt on the promise returned by `start`. -/
inductive Settlement where
  /-- `resolve(client)` after a successful handshake. -/
  | resolvedClient
  /-- `reject(new StartupError(retc))` from the crash callback. -/
  | rejectedStartup (retc : Int)
  /-- `reject(e)` from a failed handshake request. -/
  | rejectedServer (e : SrvErr)
  deriving DecidableEq, Repr

/-- External events observed while `start` is pending. -/
inductive StartEv where
  /-- the child process `close` event with exit code and signal. -/
  | crash (retc : Int) (signal : String)
  /-- the unsolicited `hello` message arrived (`onHello` fires and sends
  the `handshake` request). -/
  | hello
  /-- the `handshake` request settled (its reply arrived, or it was
  rejected with a server error). -/
  | handshakeSettled (result : Except SrvErr Unit)

/-- State of the pending `start` promise: the `resolved` guard flag of
`CMakeServerClient.start`, whether the handshake request was sent, and
the settlement attempts made on the promise in order (a JS promise keeps
only the first one; the list records every attempt so that single
settlement is provable, not assumed). -/
structure StartState where
  resolved : Bool
  handshakeSent : Bool
  attempts : List Settlement
  deriving DecidableEq, Repr

/-- Record a settlement attempt. -/
def attempt (st : StartState) (s : Settlement) : StartState :=
  { st with attempts := st.attempts ++ [s] }

/-- One event step of `start`:
* `close` with a nonzero code runs `onCrash`, which rejects with
  `StartupError(retc)` only when the `resolved` flag is still unset (and
  leaves the flag unchanged — the code does not set it there);
* `hello` sends the handshake request;
* handshake settlement sets `resolved` and then resolves with the client
  or rejects with the server error. -/
def startStep (st : StartState) (e : StartEv) : StartState :=
  match e with
  | .crash retc _signal =>
    if retc ≠ 0 then
      if st.resolved then st else attempt st (.rejectedStartup retc)
    else st
  | .hello => { st with handshakeSent := true }
  | .handshakeSettled (.ok _) => attempt { st with resolved := true } .resolvedClient
  | .handshakeSettled (.error e) =>
      attempt { st with resolved := true } (.rejectedServer e)

/-- Run `start` against a sequence of events. -/
def runStart (evs : List StartEv) : StartState :=
  evs.foldl startStep ⟨false, false, []⟩

/-- The value the `start` promise actually settles with: the first
settlement attempt wins, later ones are ignored by the JS promise. -/
def promiseOutcome (st : StartState) : Option Settlement :=
  st.attempts.head?

/-! ### Backend: targets getter and getAllTargetName -/

/-- Substring test (`/pat/.test(s)` for a literal pattern, and
`String.prototype.includes`). -/
def containsSub (s pat : String) : Bool :=
  (splitFirst pat.toList s.toList).isSome

/-- ASCII case lowering of one character (`String.prototype.toLowerCase`
restricted to the ASCII generator names in play). -/
def charLowerAscii (c : Char) : Char :=
  if c.toNat ≥ 65 && c.toNat ≤ 90 then Char.ofNat (c.toNat + 32) else c

/-- `generator.toLowerCase()` for ASCII generator names. -/
def toLowerAscii (s : String) : String :=
  String.mk (s.toList.map charLowerAscii)

/-- `CMake.getAllTargetName`: `ALL_BUILD` when the generator name matches
`/Visual Studio/` or its lower-casing contains `xcode`, else `all`. -/
def getAllTargetName (generator : String) : String :=
  if containsSub generator "Visual Studio" || containsSub (toLowerAscii generator) "xcode"
  then "ALL_BUILD" else "all"

/-- A code-model target as delivered by the `codemodel` reply.  The
`artifacts` field is optional at runtime (absent for targets without
build artifacts, e.g. INTERFACE_LIBRARY targets); `some []` models a
present-but-empty array.  An absent `buildDirectory` and an empty one are
both falsy in JS, so a single string with `""` for "missing" models the
`!!t.buildDirectory` test faithfully. -/
structure CMTargetM where
  name : String
  ttype : String
  buildDirectory : String
  artifacts : Option (List String)
  deriving DecidableEq, Repr

structure CMProjectM where
  name : String
  targets : List CMTargetM
  deriving DecidableEq, Repr

structure CMConfigM where
  name : String
  projects : List CMProjectM
  deriving DecidableEq, Repr

structure CodeModelM where
  configurations : List CMConfigM
  deriving DecidableEq, Repr

/-- One entry of the `targets` getter result (`api.RichTarget`). -/
structure RichTargetM where
  name : String
  filepath : String
  targetType : String
  deriving DecidableEq, Repr

/-- `path.normalize` on an artifact path.  The claims under verification
never depend on path normalization of a well-formed string, so it is the
identity here; what matters is that `path.normalize(undefined)` throws a
`TypeError`, which `targetEntry` models explicitly. -/
def pathNormalize (s : String) : String := s

/-- Mapping one filtered target to its rich entry:
`path.normalize(t.artifacts[0])`.  When the artifacts array is present
but empty, `t.artifacts[0]` is `undefined` and `path.normalize` throws. -/
def targetEntry (t : CMTargetM) : Except String RichTargetM :=
  match t.artifacts with
  | some (a :: _) => .ok ⟨t.name, pathNormalize a, t.ttype⟩
  | _ => .error "TypeError: Path must be a string. Received undefined"

/-- The filter of the `targets` getter:
`!!t.buildDirectory && !!t.artifacts` (note: an empty artifacts *array*
is truthy in JS, only an absent field is filtered out). -/
def targetFilter (t : CMTargetM) : Bool :=
  t.buildDirectory != "" && t.artifacts.isSome

/-- `ServerClientCMakeTools.targets`: `[]` without a code model;
otherwise the synthetic "build all" pseudo-target followed by the
filtered real targets of every project of the first configuration
(`configurations[0]` of an empty list is `undefined`, so accessing
`.projects` on it throws). -/
def targetsModel (codeModel : Option CodeModelM) (generatorName : String) :
    Except String (List RichTargetM) :=
  match codeModel with
  | none => .ok []
  | some cm =>
    match cm.configurations.head? with
    | none => .error "TypeError: Cannot read property of undefined"
    | some cfg => do
      let perProject ← cfg.projects.mapM fun proj =>
        (proj.targets.filter targetFilter).mapM targetEntry
      pure (⟨getAllTargetName generatorName,
             "A special target to build all available targets",
             "META"⟩ :: perProject.flatten)

/-! ### Backend: configure / compute / refresh -/

/-- An exception observed by `configure`: either a `ServerError` routed
from an `error` message, or a local client defect (transport fault,
programming error), which `configure` re-throws. -/
inductive Exn where
  | server (e : SrvErr)
  | localFault (msg : String)
  deriving DecidableEq, Repr

/-- The `EntryType` enum mapping of `_refreshCacheEntries`
(`{BOOL: ..., STRING: ..., ...}[el.type]`; an unrecognized wire type
yields `undefined`, which is only `console.assert`-logged). -/
inductive EntryTypeM where
  | bool | string | path | filePath | internal | uninitialized | static
  deriving DecidableEq, Repr

def entryTypeOfString : String → Option EntryTypeM
  | "BOOL" => some .bool
  | "STRING" => some .string
  | "PATH" => some .path
  | "FILEPATH" => some .filePath
  | "INTERNAL" => some .internal
  | "UNINITIALIZED" => some .uninitialized
  | "STATIC" => some .static
  | _ => none

/-- One entry of the `cache` reply (`properties` flattened). -/
structure WireCacheEntry where
  key : String
  wtype : String
  value : String
  helpString : String
  advanced : String
  deriving DecidableEq, Repr

/-- One parsed `cache.Entry` as built by `_refreshCacheEntries`. -/
structure CacheEntryM where
  key : String
  value : String
  etype : Option EntryTypeM
  helpString : String
  advanced : Bool
  deriving DecidableEq, Repr

def cacheEntryFromWire (e : WireCacheEntry) : CacheEntryM :=
  ⟨e.key, e.value, entryTypeOfString e.wtype, e.helpString, e.advanced = "1"⟩

/-- Backend-owned derived project state: `codeModel` (nullable) and the
`_cacheEntries` map (modelled as the list of parsed entries; `none`
stands for the initial empty map never refreshed). -/
structure BackendState where
  codeModel : Option CodeModelM
  cacheEntries : Option (List CacheEntryM)
  deriving DecidableEq, Repr

instance {ε α : Type} [DecidableEq ε] [DecidableEq α] : DecidableEq (Except ε α) :=
  fun a b =>
    match a, b with
    | .ok x, .ok y => if h : x = y then .isTrue (by rw [h]) else .isFalse (by simp [h])
    | .error x, .error y =>
        if h : x = y then .isTrue (by rw [h]) else .isFalse (by simp [h])
    | .ok _, .error _ => .isFalse (by simp)
    | .error _, .ok _ => .isFalse (by simp)

/-- The reply (or rejection) the server gives to each request issued
during one `configure` operation.  Requests are asynchronous; the
outcome of each is a parameter of the model. -/
structure ConfigureOutcomes where
  configure : Except Exn Unit
  compute : Except Exn Unit
  cache : Except Exn (List WireCacheEntry)
  codemodel : Except Exn CodeModelM
  deriving DecidableEq, Repr

/-- `_refreshAfterConfigure` =
`Promise.all([_refreshCacheEntries(), _refreshCodeModel()])`: both
requests are issued; each half replaces its slice of the state when its
own reply arrives, independently of the other's outcome; the combined
promise rejects when either half rejects (array order decides which
rejection surfaces in this deterministic model). -/
def refreshAfterConfigureModel (st : BackendState)
    (cacheR : Except Exn (List WireCacheEntry)) (cmR : Except Exn CodeModelM) :
    BackendState × Except Exn Unit :=
  let st' : BackendState :=
    { codeModel := match cmR with
        | .ok cm => some cm
        | .error _ => st.codeModel,
      cacheEntries := match cacheR with
        | .ok c => some (c.map cacheEntryFromWire)
        | .error _ => st.cacheEntries }
  let res : Except Exn Unit :=
    match cacheR, cmR with
    | .error e, _ => .error e
    | .ok _, .error e => .error e
    | .ok _, .ok _ => .ok ()
  (st', res)

/-- Result of one `ServerClientCMakeTools.configure(extraArgs)` call:
the request types written to the server in order, the settled value of
the returned promise (`.ok b` = resolves with boolean `b`, `.error e` =
raises), the backend state afterwards, and whether the `reconfigured`
event fired. -/
structure ConfigureResult where
  sent : List String
  result : Except Exn Bool
  state : BackendState
  fired : Bool
  deriving DecidableEq, Repr

/-- `ServerClientCMakeTools.configure`: `configure` then `compute` inside
a try/catch that turns a `ServerError` into `false` and re-throws
anything else; on success of both, `_refreshAfterConfigure` (outside the
try) runs, then the `reconfigured` emitter fires and the promise resolves
`true`.  A rejection of the refresh propagates out of `configure`. -/
def configureModel (st : BackendState) (o : ConfigureOutcomes)
    (_extraArgs : Option (List String)) : ConfigureResult :=
  match o.configure with
  | .error (.server _) => ⟨["configure"], .ok false, st, false⟩
  | .error (.localFault m) => ⟨["configure"], .error (.localFault m), st, false⟩
  | .ok _ =>
    match o.compute with
    | .error (.server _) => ⟨["configure", "compute"], .ok false, st, false⟩
    | .error (.localFault m) =>
        ⟨["configure", "compute"], .error (.localFault m), st, false⟩
    | .ok _ =>
      let sent := ["configure", "compute", "cache", "codemodel"]
      let r := refreshAfterConfigureModel st o.cache o.codemodel
      match r.2 with
      | .error e => ⟨sent, .error e, r.1, false⟩
      | .ok _ => ⟨sent, .ok true, r.1, true⟩

/-! ### Backend factory: initializeNew and its caller -/

/-- Trace of `ServerClientCMakeToolsFactory.initializeNew`: it calls
`CMakeServerClient.start` unconditionally — no check of the binary
directory happens in the factory, so the server process is spawned (by
the `CMakeServerClient` constructor) regardless of a pre-existing
`CMakeCache.txt`. -/
structure InitializeNewTrace where
  spawned : Bool
  rejectedBeforeSpawn : Bool
  deriving DecidableEq, Repr

/-- `initializeNew(params)` as written in the factory: start the client
(spawning the process), then create the backend.  The
`cacheExistsInBinaryDir` argument is the state of the file system; the
body never consults it. -/
def initializeNewModel (_cacheExistsInBinaryDir : Bool) : InitializeNewTrace :=
  ⟨true, false⟩

/-- The caller `startBackendForNewProject` (wrapper layer): validates
that a build directory is configured and that it does not already
contain `CMakeCache.txt`, throwing before the factory (and hence before
any spawn) otherwise; only then does it proceed to
`backendFactory.initializeNew`.  The boolean records whether
`initializeNew` (and thus the spawn) was reached. -/
def startBackendForNewProjectModel (buildDirectory : Option String)
    (cacheExists : Bool) : Bool × Except String String :=
  match buildDirectory with
  | none => (false, .error "Build directory is not properly configured")
  | some d =>
    if cacheExists then
      (false, .error ("Directory " ++ d ++
        " already contains CMakeCache.txt. Please run Clean Configure or use another directory"))
    else (true, .ok d)

/-! ### Helper lemmas: correlation table -/

theorem lookupTable_removeKey_self (t : Table) (c : String) :
    lookupTable (removeKey t c) c = none := by
  induction t with
  | nil => rfl
  | cons e rest ih =>
    obtain ⟨k, h⟩ := e
    by_cases hk : k = c
    · subst hk
      simpa [removeKey, List.filter_cons] using ih
    · have hb : (k != c) = true := by simpa using hk
      simpa [removeKey, List.filter_cons, hb, lookupTable, hk] using ih

theorem lookupTable_removeKey_ne (t : Table) (c c' : String) (h : c' ≠ c) :
    lookupTable (removeKey t c) c' = lookupTable t c' := by
  induction t with
  | nil => rfl
  | cons e rest ih =>
    obtain ⟨k, hh⟩ := e
    by_cases hk : k = c
    · subst hk
      have hkc : k ≠ c' := fun hx => h hx.symm
      simpa [removeKey, List.filter_cons, lookupTable, hkc] using ih
    · have hb : (k != c) = true := by simpa using hk
      by_cases hk' : k = c'
      · simp [removeKey, List.filter_cons, hb, lookupTable, hk', h]
      · simpa [removeKey, List.filter_cons, hb, lookupTable, hk'] using ih

theorem removeKey_keys_sublist (t : Table) (c : String) :
    ((removeKey t c).map Prod.fst).Sublist (t.map Prod.fst) :=
  List.Sublist.map Prod.fst (List.filter_sublist t)

/-! ### C2: cookie correlation -/

/-- C2: for any set of outstanding requests registered under pairwise
distinct cookies, delivering their terminal `reply` messages in any order
(the list `replies` is arbitrary, so every permutation is covered)
invokes, for each reply, exactly the `resolve` continuation registered
under that reply's own cookie, passing that very reply — never a
mismatched one.  A reply whose cookie is not in the table is merely
logged. -/
theorem cookie_correlation (t : Table) (replies : List JsObj)
    (_hkeys : (t.map Prod.fst).Nodup)
    (htype : ∀ m ∈ replies, getField m "type" = some "reply")
    (hcookie : ∀ m ∈ replies, (getField m "cookie").isSome)
    (hdist : (replies.filterMap fun m => getField m "cookie").Nodup) :
    (runMessages t replies).2 = replies.map fun m =>
      match getField m "cookie" with
      | some c =>
        match lookupTable t c with
        | some h => Effect.resolveP h.id m
        | none => Effect.logDropped
      | none => Effect.warnUnhandled := by
  induction replies generalizing t with
  | nil => rfl
  | cons m rest ih =>
    have hm : getField m "type" = some "reply" := htype m (List.mem_cons_self m rest)
    obtain ⟨c, hc⟩ : ∃ c, getField m "cookie" = some c := by
      have := hcookie m (List.mem_cons_self m rest)
      cases hx : getField m "cookie" with
      | none => rw [hx] at this; simp at this
      | some c => exact ⟨c, rfl⟩
    have hfm : (m :: rest).filterMap (fun m => getField m "cookie") =
        c :: rest.filterMap fun m => getField m "cookie" := by
      simp [List.filterMap_cons, hc]
    have hnotin : c ∉ rest.filterMap fun m => getField m "cookie" := by
      rw [hfm] at hdist
      exact (List.nodup_cons.1 hdist).1
    have hdist' : (rest.filterMap fun m => getField m "cookie").Nodup := by
      rw [hfm] at hdist
      exact (List.nodup_cons.1 hdist).2
    have hne : ∀ m' ∈ rest, ∀ c', getField m' "cookie" = some c' → c' ≠ c := by
      intro m' hm' c' hc' hcc
      exact hnotin (by
        subst hcc
        exact List.mem_filterMap.2 ⟨m', hm', hc'⟩)
    cases hl : lookupTable t c with
    | some h =>
      have hstep : onMessageModel t m = (removeKey t c, [Effect.resolveP h.id m]) := by
        simp [onMessageModel, cookieDispatch, hm, hc, hl]
      have ihr := ih (removeKey t c)
        ((removeKey_keys_sublist t c).nodup _hkeys)
        (fun m' hm' => htype m' (List.mem_cons_of_mem m hm'))
        (fun m' hm' => hcookie m' (List.mem_cons_of_mem m hm'))
        hdist'
      have hmapeq : (rest.map fun m' =>
          match getField m' "cookie" with
          | some c' =>
            match lookupTable (removeKey t c) c' with
            | some h' => Effect.resolveP h'.id m'
            | none => Effect.logDropped
          | none => Effect.warnUnhandled) = rest.map fun m' =>
          match getField m' "cookie" with
          | some c' =>
            match lookupTable t c' with
            | some h' => Effect.resolveP h'.id m'
            | none => Effect.logDropped
          | none => Effect.warnUnhandled := by
        apply List.map_congr_left
        intro m' hm'
        cases hx : getField m' "cookie" with
        | none => simp
        | some c' =>
          have : c' ≠ c := hne m' hm' c' hx
          simp [lookupTable_removeKey_ne t c c' this]
      show ((onMessageModel t m).2 ++ (runMessages (onMessageModel t m).1 rest).2) = _
      rw [hstep]
      simp only [List.map_cons, hc, hl]
      rw [ihr, hmapeq]
      rfl
    | none =>
      have hstep : onMessageModel t m = (t, [Effect.logDropped]) := by
        simp [onMessageModel, cookieDispatch, hm, hc, hl]
      have ihr := ih t _hkeys
        (fun m' hm' => htype m' (List.mem_cons_of_mem m hm'))
        (fun m' hm' => hcookie m' (List.mem_cons_of_mem m hm'))
        hdist'
      show ((onMessageModel t m).2 ++ (runMessages (onMessageModel t m).1 rest).2) = _
      rw [hstep]
      simp only [List.map_cons, hc, hl]
      rw [ihr]
      rfl

/-- Witness for C2: two outstanding requests with cookies `c1`, `c2`;
their replies delivered in reversed order resolve promise 2 with the
`c2` reply and promise 1 with the `c1` reply. -/
theorem cookie_correlation_witness :
    (runMessages [("c1", ⟨1, false, false⟩), ("c2", ⟨2, false, false⟩)]
        [[("type", "reply"), ("cookie", "c2"), ("inReplyTo", "compute")],
         [("type", "reply"), ("cookie", "c1"), ("inReplyTo", "configure")]]).2 =
      [Effect.resolveP 2 [("type", "reply"), ("cookie", "c2"), ("inReplyTo", "compute")],
       Effect.resolveP 1 [("type", "reply"), ("cookie", "c1"), ("inReplyTo", "configure")]] := by
  rw [cookie_correlation _ _ (by decide) (by decide) (by decide) (by decide)]
  decide

/-! ### C3: correlation table cleanup -/

/-- C3: a terminal `reply`/`error` for a registered cookie removes its
entry and settles it, exactly once; after removal the cookie no longer
looks up; and any cookied `reply`/`error`/`progress`/`message` whose
cookie is not (or no longer) registered leaves the table untouched and
produces only the invalid-cookie log line — no settlement, no fault. -/
theorem correlation_table_cleanup :
    (∀ (t : Table) (m : JsObj) (c : String) (h : Handler),
      getField m "type" = some "reply" → getField m "cookie" = some c →
      lookupTable t c = some h →
      onMessageModel t m = (removeKey t c, [Effect.resolveP h.id m]))
    ∧ (∀ (t : Table) (m : JsObj) (c : String) (h : Handler),
      getField m "type" = some "error" → getField m "cookie" = some c →
      lookupTable t c = some h →
      onMessageModel t m = (removeKey t c,
        [Effect.rejectP h.id ⟨getFieldD m "errorMessage", c, getFieldD m "inReplyTo"⟩]))
    ∧ (∀ (t : Table) (c : String), lookupTable (removeKey t c) c = none)
    ∧ (∀ (t : Table) (m : JsObj) (c : String),
      getField m "cookie" = some c → lookupTable t c = none →
      (getField m "type" = some "reply" ∨ getField m "type" = some "error" ∨
        getField m "type" = some "progress" ∨ getField m "type" = some "message") →
      onMessageModel t m = (t, [Effect.logDropped])) := by
  refine ⟨?_, ?_, lookupTable_removeKey_self, ?_⟩
  · intro t m c h h1 h2 h3
    simp [onMessageModel, cookieDispatch, h1, h2, h3]
  · intro t m c h h1 h2 h3
    simp [onMessageModel, cookieDispatch, h1, h2, h3]
  · intro t m c h1 h2 h3
    rcases h3 with h3 | h3 | h3 | h3 <;>
      simp [onMessageModel, cookieDispatch, h1, h2, h3]

/-- Witness for C3: a `reply` for cookie `ck` removes and resolves its
entry; a `progress` bearing `ck` delivered afterwards (table now without
`ck`) is only logged and changes nothing. -/
theorem correlation_table_cleanup_witness :
    onMessageModel [("ck", ⟨7, true, false⟩)]
        [("type", "reply"), ("cookie", "ck")] =
      (removeKey [("ck", ⟨7, true, false⟩)] "ck",
       [Effect.resolveP 7 [("type", "reply"), ("cookie", "ck")]])
    ∧ lookupTable (removeKey [("ck", ⟨7, true, false⟩)] "ck") "ck" = none
    ∧ onMessageModel (removeKey [("ck", ⟨7, true, false⟩)] "ck")
        [("type", "progress"), ("cookie", "ck"), ("progressMessage", "x")] =
      (removeKey [("ck", ⟨7, true, false⟩)] "ck", [Effect.logDropped]) := by
  refine ⟨?_, ?_, ?_⟩
  · exact correlation_table_cleanup.1 _ _ "ck" ⟨7, true, false⟩ (by decide) (by decide)
      (by decide)
  · exact correlation_table_cleanup.2.2.1 _ "ck"
  · exact correlation_table_cleanup.2.2.2 _ _ "ck" (by decide) (by decide)
      (Or.inr (Or.inr (Or.inl (by decide))))

/-! ### C7: envelope fields of the resolved value -/

/-- Counterexample for C7: `_onMessage` resolves the pending promise with
the entire reply message object; the protocol envelope fields `type`,
`cookie` and `inReplyTo` are still present in the resolved value (they
are only hidden by the static TypeScript signatures, never removed at
runtime), contradicting the claimed stripping. -/
theorem reply_resolution_keeps_envelope :
    (onMessageModel [("ck", ⟨1, false, false⟩)]
        [("type", "reply"), ("cookie", "ck"), ("inReplyTo", "configure"),
         ("foo", "bar")]).2 =
      [Effect.resolveP 1
        [("type", "reply"), ("cookie", "ck"), ("inReplyTo", "configure"),
         ("foo", "bar")]]
    ∧ getField [("type", "reply"), ("cookie", "ck"), ("inReplyTo", "configure"),
        ("foo", "bar")] "type" = some "reply"
    ∧ getField [("type", "reply"), ("cookie", "ck"), ("inReplyTo", "configure"),
        ("foo", "bar")] "cookie" = some "ck"
    ∧ getField [("type", "reply"), ("cookie", "ck"), ("inReplyTo", "configure"),
        ("foo", "bar")] "inReplyTo" = some "configure" := by
  decide

/-- C7 (amended): the promise returned by `sendRequest` is resolved with
the full reply message object (content fields included, envelope fields
retained), and on an `error` message it is rejected with a `ServerError`
carrying `errorMessage`, the originating cookie and `inReplyTo`. -/
theorem sendRequest_resolution_amended :
    ∀ (t : Table) (m : JsObj) (c : String) (h : Handler),
      (getField m "type" = some "reply" → getField m "cookie" = some c →
        lookupTable t c = some h →
        onMessageModel t m = (removeKey t c, [Effect.resolveP h.id m]))
      ∧ (getField m "type" = some "error" → getField m "cookie" = some c →
        lookupTable t c = some h →
        onMessageModel t m = (removeKey t c,
          [Effect.rejectP h.id
            ⟨getFieldD m "errorMessage", c, getFieldD m "inReplyTo"⟩])) := by
  intro t m c h
  constructor
  · intro h1 h2 h3
    simp [onMessageModel, cookieDispatch, h1, h2, h3]
  · intro h1 h2 h3
    simp [onMessageModel, cookieDispatch, h1, h2, h3]

/-- Witness for the amended C7: concrete reply and error messages. -/
theorem sendRequest_resolution_amended_witness :
    onMessageModel [("ck", ⟨3, false, false⟩)]
        [("type", "reply"), ("cookie", "ck"), ("inReplyTo", "cache"), ("cache", "[]")] =
      (removeKey [("ck", ⟨3, false, false⟩)] "ck",
       [Effect.resolveP 3
         [("type", "reply"), ("cookie", "ck"), ("inReplyTo", "cache"), ("cache", "[]")]])
    ∧ onMessageModel [("ck", ⟨3, false, false⟩)]
        [("type", "error"), ("cookie", "ck"), ("inReplyTo", "configure"),
         ("errorMessage", "bad cache args")] =
      (removeKey [("ck", ⟨3, false, false⟩)] "ck",
       [Effect.rejectP 3 ⟨"bad cache args", "ck", "configure"⟩]) := by
  constructor
  · exact (sendRequest_resolution_amended _ _ "ck" ⟨3, false, false⟩).1
      (by decide) (by decide) (by decide)
  · exact (sendRequest_resolution_amended _ _ "ck" ⟨3, false, false⟩).2
      (by decide) (by decide) (by decide)

/-! ### C4: configure/compute ordering -/

/-- C4: during `configure(extraArgs)`, the `compute` request is written
iff the `configure` request's reply came back successfully; it then
immediately follows `configure` in the outbound order.  When the server
answers `configure` with an error (or the request fails locally), no
`compute` request is ever sent for that operation. -/
theorem configure_compute_ordering :
    ∀ (st : BackendState) (o : ConfigureOutcomes) (args : Option (List String)),
      ("compute" ∈ (configureModel st o args).sent ↔ o.configure = Except.ok ())
      ∧ (∀ e, o.configure = Except.error e → (configureModel st o args).sent = ["configure"])
      ∧ (o.configure = Except.ok () →
          (configureModel st o args).sent.take 2 = ["configure", "compute"]) := by
  intro st o args
  rcases o with ⟨cfg, cmp, cch, cdm⟩
  rcases cfg with e | u
  · rcases e with e | m <;>
      refine ⟨by simp [configureModel], fun e h => ?_, by simp [configureModel]⟩ <;>
      simp [configureModel]
  · rcases u
    refine ⟨?_, fun e h => by simp at h, ?_⟩ <;>
      rcases cmp with e | u
    · rcases e with e | m <;> simp [configureModel]
    · rcases u
      rcases cch with e | c <;> rcases cdm with f | d <;>
        simp [configureModel, refreshAfterConfigureModel]
    · rcases e with e | m <;> simp [configureModel]
    · rcases u
      rcases cch with e | c <;> rcases cdm with f | d <;>
        simp [configureModel, refreshAfterConfigureModel]

/-- Witness for C4: with a server error answering `configure`, only
`configure` was sent; with a successful `configure`, `compute` follows it
directly. -/
theorem configure_compute_ordering_witness :
    (configureModel ⟨none, none⟩
        ⟨Except.error (Exn.server ⟨"bad", "ck", "configure"⟩), Except.ok (),
         Except.ok [], Except.ok ⟨[]⟩⟩ none).sent = ["configure"]
    ∧ (configureModel ⟨none, none⟩
        ⟨Except.ok (), Except.ok (), Except.ok [], Except.ok ⟨[]⟩⟩ none).sent.take 2 =
      ["configure", "compute"] := by
  constructor
  · exact (configure_compute_ordering ⟨none, none⟩
      ⟨Except.error (Exn.server ⟨"bad", "ck", "configure"⟩), Except.ok (),
       Except.ok [], Except.ok ⟨[]⟩⟩ none).2.1 _ rfl
  · exact (configure_compute_ordering ⟨none, none⟩
      ⟨Except.ok (), Except.ok (), Except.ok [], Except.ok ⟨[]⟩⟩ none).2.2 rfl

/-! ### C5: configure result and error routing -/

/-- Counterexample for C5: both the configure and the compute step
succeed, yet `configure` neither resolves `true` nor fires the
`reconfigured` event — the code-model refresh request (issued outside the
try/catch) was answered with a server error, and that rejection
propagates out of `configure` as a raised error instead of a `false`
result. -/
theorem configure_refresh_failure_raises :
    (⟨Except.ok (), Except.ok (), Except.ok [],
      Except.error (Exn.server ⟨"boom", "ck", "codemodel"⟩)⟩ : ConfigureOutcomes).configure
        = Except.ok ()
    ∧ (⟨Except.ok (), Except.ok (), Except.ok [],
        Except.error (Exn.server ⟨"boom", "ck", "codemodel"⟩)⟩ : ConfigureOutcomes).compute
        = Except.ok ()
    ∧ (configureModel ⟨none, none⟩
        ⟨Except.ok (), Except.ok (), Except.ok [],
         Except.error (Exn.server ⟨"boom", "ck", "codemodel"⟩)⟩ none).result ≠
      Except.ok true
    ∧ (configureModel ⟨none, none⟩
        ⟨Except.ok (), Except.ok (), Except.ok [],
         Except.error (Exn.server ⟨"boom", "ck", "codemodel"⟩)⟩ none).result =
      Except.error (Exn.server ⟨"boom", "ck", "codemodel"⟩)
    ∧ (configureModel ⟨none, none⟩
        ⟨Except.ok (), Except.ok (), Except.ok [],
         Except.error (Exn.server ⟨"boom", "ck", "codemodel"⟩)⟩ none).fired = false := by
  refine ⟨rfl, rfl, ?_, rfl, rfl⟩
  intro h
  simp [configureModel, refreshAfterConfigureModel] at h

/-- C5 (amended): a `ServerError` answering the configure or compute
step resolves `configure` to `false` without raising; a local fault
raises; on success of both steps the cache and code-model refresh
requests are issued and, when both succeed as well, the derived state is
replaced wholesale, `reconfigured` fires and `configure` resolves `true`;
a refresh rejection instead propagates as a raised error (the half that
succeeded still updates its slice of the state). -/
theorem configure_result_amended :
    ∀ (st : BackendState) (o : ConfigureOutcomes) (args : Option (List String)),
      (∀ e, o.configure = Except.error (Exn.server e) →
        configureModel st o args = ⟨["configure"], Except.ok false, st, false⟩)
      ∧ (∀ m, o.configure = Except.error (Exn.localFault m) →
        configureModel st o args =
          ⟨["configure"], Except.error (Exn.localFault m), st, false⟩)
      ∧ (∀ e, o.configure = Except.ok () → o.compute = Except.error (Exn.server e) →
        configureModel st o args =
          ⟨["configure", "compute"], Except.ok false, st, false⟩)
      ∧ (∀ m, o.configure = Except.ok () → o.compute = Except.error (Exn.localFault m) →
        configureModel st o args =
          ⟨["configure", "compute"], Except.error (Exn.localFault m), st, false⟩)
      ∧ (∀ entries cm, o = ⟨Except.ok (), Except.ok (), Except.ok entries, Except.ok cm⟩ →
        configureModel st o args =
          ⟨["configure", "compute", "cache", "codemodel"], Except.ok true,
           ⟨some cm, some (entries.map cacheEntryFromWire)⟩, true⟩)
      ∧ (o.configure = Except.ok () → o.compute = Except.ok () →
        (∃ e, o.cache = Except.error e ∨ o.codemodel = Except.error e) →
        (∃ e, (configureModel st o args).result = Except.error e)
          ∧ (configureModel st o args).fired = false) := by
  intro st o args
  rcases o with ⟨cfg, cmp, cch, cdm⟩
  refine ⟨?_, ?_, ?_, ?_, ?_, ?_⟩
  · intro e h
    subst h
    simp [configureModel]
  · intro m h
    subst h
    simp [configureModel]
  · intro e h1 h2
    subst h1; subst h2
    simp [configureModel]
  · intro m h1 h2
    subst h1; subst h2
    simp [configureModel]
  · intro entries cm h
    cases h
    simp [configureModel, refreshAfterConfigureModel]
  · intro h1 h2 he
    subst h1; subst h2
    rcases cch with e | c
    · exact ⟨⟨e, by simp [configureModel, refreshAfterConfigureModel]⟩,
        by simp [configureModel, refreshAfterConfigureModel]⟩
    · rcases cdm with f | d
      · exact ⟨⟨f, by simp [configureModel, refreshAfterConfigureModel]⟩,
          by simp [configureModel, refreshAfterConfigureModel]⟩
      · rcases he with ⟨e, he | he⟩ <;> simp at he

/-- Witness for the amended C5: the all-success case resolves `true`,
replaces the state and fires the notification. -/
theorem configure_result_amended_witness :
    configureModel ⟨none, none⟩
        ⟨Except.ok (), Except.ok (),
         Except.ok [⟨"CMAKE_BUILD_TYPE", "STRING", "Debug", "", "0"⟩],
         Except.ok ⟨[]⟩⟩ none =
      ⟨["configure", "compute", "cache", "codemodel"], Except.ok true,
       ⟨some ⟨[]⟩,
        some [⟨"CMAKE_BUILD_TYPE", "Debug", some EntryTypeM.string, "", false⟩]⟩,
       true⟩ := by
  have h := (configure_result_amended ⟨none, none⟩
      ⟨Except.ok (), Except.ok (),
       Except.ok [⟨"CMAKE_BUILD_TYPE", "STRING", "Debug", "", "0"⟩],
       Except.ok ⟨[]⟩⟩ none).2.2.2.2.1
      [⟨"CMAKE_BUILD_TYPE", "STRING", "Debug", "", "0"⟩] ⟨[]⟩ rfl
  simpa [cacheEntryFromWire, entryTypeOfString] using h

/-! ### C6: crash before hello -/

theorem startStep_attempts_extend (st : StartState) (e : StartEv) :
    ∃ suf, (startStep st e).attempts = st.attempts ++ suf := by
  cases e with
  | crash retc sig =>
    by_cases h : retc ≠ 0
    · by_cases hr : st.resolved
      · exact ⟨[], by simp [startStep, h, hr]⟩
      · exact ⟨[Settlement.rejectedStartup retc], by simp [startStep, h, hr, attempt]⟩
    · exact ⟨[], by simp [startStep, h]⟩
  | hello => exact ⟨[], by simp [startStep]⟩
  | handshakeSettled r =>
    cases r with
    | ok u => exact ⟨[Settlement.resolvedClient], by simp [startStep, attempt]⟩
    | error e => exact ⟨[Settlement.rejectedServer e], by simp [startStep, attempt]⟩

theorem foldl_startStep_attempts_extend (evs : List StartEv) (st : StartState) :
    ∃ suf, (List.foldl startStep st evs).attempts = st.attempts ++ suf := by
  induction evs generalizing st with
  | nil => exact ⟨[], by simp⟩
  | cons e rest ih =>
    obtain ⟨s1, h1⟩ := startStep_attempts_extend st e
    obtain ⟨s2, h2⟩ := ih (startStep st e)
    exact ⟨s1 ++ s2, by simp [List.foldl_cons, h2, h1]⟩

/-- C6: when the server process closes with a nonzero exit code before
any `hello` arrived, the pending `start` promise is rejected with
`StartupError(retc)` carrying that exit code; the first settlement
attempt wins, so the promise settles exactly once with it no matter what
happens later; with no later handshake activity there is literally a
single settlement attempt; and conversely, after a successful handshake
has resolved the promise, a later crash makes no further attempt (the
`resolved` flag guards the crash callback). -/
theorem crash_before_hello_rejects_startup_once :
    (∀ (retc : Int) (sig : String) (rest : List StartEv), retc ≠ 0 →
      promiseOutcome (runStart (StartEv.crash retc sig :: rest)) =
        some (Settlement.rejectedStartup retc))
    ∧ (∀ (retc : Int) (sig : String), retc ≠ 0 →
      (runStart [StartEv.crash retc sig]).attempts = [Settlement.rejectedStartup retc])
    ∧ (∀ (retc : Int) (sig : String),
      (runStart [StartEv.hello, StartEv.handshakeSettled (Except.ok ()),
                 StartEv.crash retc sig]).attempts = [Settlement.resolvedClient]) := by
  refine ⟨?_, ?_, ?_⟩
  · intro retc sig rest h
    have hfirst : startStep ⟨false, false, []⟩ (StartEv.crash retc sig) =
        ⟨false, false, [Settlement.rejectedStartup retc]⟩ := by
      simp [startStep, h, attempt]
    show ((StartEv.crash retc sig :: rest).foldl startStep ⟨false, false, []⟩).attempts.head? = _
    rw [List.foldl_cons, hfirst]
    obtain ⟨suf, hsuf⟩ := foldl_startStep_attempts_extend rest
      ⟨false, false, [Settlement.rejectedStartup retc]⟩
    rw [hsuf]
    rfl
  · intro retc sig h
    simp [runStart, startStep, h, attempt]
  · intro retc sig
    by_cases h : retc = 0 <;>
      simp [runStart, startStep, attempt, h]

/-- Witness for C6: exit code 2 before hello rejects with
`StartupError(2)` in a single settlement attempt. -/
theorem crash_before_hello_witness :
    promiseOutcome (runStart [StartEv.crash 2 "", StartEv.hello]) =
      some (Settlement.rejectedStartup 2)
    ∧ (runStart [StartEv.crash 2 ""]).attempts = [Settlement.rejectedStartup 2] := by
  constructor
  · exact crash_before_hello_rejects_startup_once.1 2 "" [StartEv.hello] (by decide)
  · exact crash_before_hello_rejects_startup_once.2.1 2 "" (by decide)

/-! ### C8: targets derivation (synthetic all-target + artifact filter) -/

/-- C8 evaluated at the failing input (code bug): the target filter is
`!!t.buildDirectory && !!t.artifacts`, and an empty artifacts *array* is
truthy in JS, so a target with a build directory and `artifacts: []`
passes the filter; the subsequent `path.normalize(t.artifacts[0])` then
throws a `TypeError` instead of excluding the artifact-less target as
the in-code comment ("Filter out targets with no build dir/filename")
and the claim intend.  The spec's own scenarios do hold: an
INTERFACE_LIBRARY target with no artifacts field is excluded, and the
synthetic all-target is `ALL_BUILD` for `Visual Studio 15 2017` and
`all` for `Unix Makefiles`. -/
theorem targets_artifactless_target_throws :
    targetsModel
        (some ⟨[⟨"Debug", [⟨"proj",
          [⟨"util", "UTILITY", "/build", some []⟩]⟩]⟩]⟩) "Unix Makefiles" =
      Except.error "TypeError: Path must be a string. Received undefined"
    ∧ targetsModel
        (some ⟨[⟨"Debug", [⟨"proj",
          [⟨"MyExecutable", "EXECUTABLE", "/build", some ["/build/MyExecutable"]⟩,
           ⟨"iface", "INTERFACE_LIBRARY", "", none⟩]⟩]⟩]⟩) "Unix Makefiles" =
      Except.ok [⟨"all", "A special target to build all available targets", "META"⟩,
                 ⟨"MyExecutable", "/build/MyExecutable", "EXECUTABLE"⟩]
    ∧ getAllTargetName "Visual Studio 15 2017" = "ALL_BUILD"
    ∧ getAllTargetName "Unix Makefiles" = "all"
    ∧ getAllTargetName "Xcode" = "ALL_BUILD" := by
  refine ⟨by decide, by decide, by decide, by decide, by decide⟩

/-! ### C9: initializeNew precondition -/

/-- Counterexample for C9: `ServerClientCMakeToolsFactory.initializeNew`
itself performs no cache check — called with a binary directory that
already contains `CMakeCache.txt`, it still starts the client (spawning
the server process) and does not reject beforehand. -/
theorem initializeNew_spawns_despite_cache :
    (initializeNewModel true).spawned = true
    ∧ (initializeNewModel true).rejectedBeforeSpawn = false :=
  ⟨rfl, rfl⟩

/-- C9 (amended): the already-contains-a-cache precondition is enforced
by the caller `startBackendForNewProject` (wrapper layer), which rejects
before ever reaching the factory — and hence before any process spawn —
when the build directory is missing or already holds `CMakeCache.txt`;
only a cache-free directory proceeds to `initializeNew`. -/
theorem new_project_cache_check_in_caller :
    (∀ dir, startBackendForNewProjectModel (some dir) true =
      (false, Except.error ("Directory " ++ dir ++
        " already contains CMakeCache.txt. Please run Clean Configure or use another directory")))
    ∧ (∀ dir, startBackendForNewProjectModel (some dir) false = (true, Except.ok dir))
    ∧ startBackendForNewProjectModel none true =
      (false, Except.error "Build directory is not properly configured") := by
  refine ⟨fun dir => ?_, fun dir => ?_, rfl⟩ <;> rfl

/-! ### C10: targets without a code model -/

/-- C10: with no fetched code model (`codeModel` is null) the `targets`
getter returns the empty list — the early return fires before the
synthetic "build all" entry is ever constructed. -/
theorem targets_empty_without_code_model :
    ∀ generatorName : String, targetsModel none generatorName = Except.ok [] :=
  fun _ => rfl

/-! ### C1 groundwork: isPre and splitFirst -/

theorem isPre_iff (pat s : List Char) : isPre pat s = true ↔ ∃ t, s = pat ++ t := by
  induction pat generalizing s with
  | nil => simp [isPre]
  | cons a as ih =>
    cases s with
    | nil => simp [isPre]
    | cons b bs =>
      rw [isPre, Bool.and_eq_true, beq_iff_eq, ih]
      constructor
      · rintro ⟨rfl, t, rfl⟩
        exact ⟨t, rfl⟩
      · rintro ⟨t, ht⟩
        obtain ⟨rfl, rfl⟩ : a = b ∧ bs = as ++ t := by
          constructor
          · exact (List.cons_eq_cons.1 ht.symm).1
          · exact (List.cons_eq_cons.1 ht).2
        exact ⟨rfl, t, rfl⟩

theorem isPre_length_le {pat s : List Char} (h : isPre pat s = true) :
    pat.length ≤ s.length := by
  obtain ⟨t, rfl⟩ := (isPre_iff pat s).1 h
  simp

theorem isPre_cons_head {pat : List Char} {c : Char} {s : List Char}
    (h : isPre pat (c :: s) = true) (hp : pat ≠ []) : ∃ pt, pat = c :: pt := by
  obtain ⟨t, ht⟩ := (isPre_iff pat (c :: s)).1 h
  cases pat with
  | nil => exact absurd rfl hp
  | cons p0 pts => exact ⟨pts, by rw [(List.cons_eq_cons.1 ht).1]⟩

theorem isPre_self_append (pat t : List Char) : isPre pat (pat ++ t) = true :=
  (isPre_iff pat (pat ++ t)).2 ⟨t, rfl⟩

theorem splitFirst_sound {pat s pre post : List Char}
    (h : splitFirst pat s = some (pre, post)) : s = pre ++ pat ++ post := by
  induction s generalizing pre post with
  | nil =>
    rw [splitFirst] at h
    by_cases hp : isPre pat [] = true
    · obtain ⟨t, ht⟩ := (isPre_iff pat []).1 hp
      have hpat : pat = [] := by
        cases pat with
        | nil => rfl
        | cons a as => simp at ht
      rw [hp] at h
      simp at h
      obtain ⟨rfl, rfl⟩ := h
      simp [hpat]
    · rw [if_neg hp] at h
      cases h
  | cons c rest ih =>
    rw [splitFirst] at h
    by_cases hp : isPre pat (c :: rest) = true
    · rw [if_pos hp] at h
      simp at h
      obtain ⟨rfl, rfl⟩ := h
      obtain ⟨t, ht⟩ := (isPre_iff pat (c :: rest)).1 hp
      rw [ht]
      simp [List.drop_left]
    · rw [if_neg hp] at h
      cases hs : splitFirst pat rest with
      | none => rw [hs] at h; cases h
      | some pr =>
        rw [hs] at h
        simp at h
        obtain ⟨rfl, rfl⟩ := h
        have := ih (show splitFirst pat rest = some (pr.1, pr.2) by rw [hs])
        simp [this]

theorem splitFirst_none_of_no_suffix {pat s : List Char} (_hp : pat ≠ [])
    (h : ∀ a b, s = a ++ b → isPre pat b = false) : splitFirst pat s = none := by
  induction s with
  | nil =>
    rw [splitFirst, if_neg]
    rw [h [] [] rfl]
    simp
  | cons c rest ih =>
    rw [splitFirst, if_neg, ih fun a b hab => h (c :: a) b (by rw [hab]; rfl)]
    · rfl
    · rw [h [] (c :: rest) rfl]
      simp

theorem splitFirst_none_sound {pat s : List Char} (h : splitFirst pat s = none) :
    ∀ a b, s = a ++ b → isPre pat b = false := by
  induction s with
  | nil =>
    intro a b hab
    obtain ⟨rfl, rfl⟩ : a = [] ∧ b = [] := by
      constructor
      · cases a with
        | nil => rfl
        | cons x xs => simp at hab
      · cases b with
        | nil => rfl
        | cons x xs =>
          cases a <;> simp at hab
    rw [splitFirst] at h
    by_cases hp : isPre pat [] = true
    · rw [if_pos hp] at h; cases h
    · simpa using hp
  | cons c rest ih =>
    rw [splitFirst] at h
    by_cases hp : isPre pat (c :: rest) = true
    · rw [if_pos hp] at h; cases h
    · rw [if_neg hp] at h
      have hrest : splitFirst pat rest = none := by
        cases hs : splitFirst pat rest with
        | none => rfl
        | some pr => rw [hs] at h; simp at h
      intro a b hab
      cases a with
      | nil =>
        obtain rfl : c :: rest = b := by simpa using hab
        simpa using hp
      | cons a0 as =>
        obtain ⟨rfl, hab'⟩ := List.cons_eq_cons.1 hab
        exact ih hrest as b hab'

theorem splitFirst_first_occurrence {pat : List Char} (hp : pat ≠ []) :
    ∀ pre post, (∀ a b, pre = a ++ b → b ≠ [] → isPre pat (b ++ pat ++ post) = false) →
      splitFirst pat (pre ++ pat ++ post) = some (pre, post) := by
  intro pre
  induction pre with
  | nil =>
    intro post _
    cases pat with
    | nil => exact absurd rfl hp
    | cons p0 pt =>
      show splitFirst (p0 :: pt) (p0 :: (pt ++ post)) = some ([], post)
      rw [splitFirst, if_pos (show isPre (p0 :: pt) (p0 :: (pt ++ post)) = true from
        isPre_self_append (p0 :: pt) post)]
      have hd : (p0 :: (pt ++ post)).drop (p0 :: pt).length = post :=
        List.drop_left (p0 :: pt) post
      rw [hd]
  | cons c pre' ih =>
    intro post hno
    have hfalse : isPre pat ((c :: pre') ++ pat ++ post) = false :=
      hno [] (c :: pre') rfl (by simp)
    show splitFirst pat (c :: (pre' ++ pat ++ post)) = _
    rw [splitFirst, if_neg (by simpa using hfalse), ih post
      fun a b hab hb => hno (c :: a) b (by rw [hab]; rfl) hb]
    rfl

theorem splitFirst_some_length {pat s pre post : List Char} (hp : pat ≠ [])
    (h : splitFirst pat s = some (pre, post)) : post.length < s.length := by
  have := splitFirst_sound h
  subst this
  have : 0 < pat.length := List.length_pos.2 hp
  simp
  omega

/-! ### C1 groundwork: marker facts and small list helpers -/

theorem startMarker_ne_nil : startMarker ≠ [] := by decide

theorem endMarker_ne_nil : endMarker ≠ [] := by decide

theorem newline_not_mem_endMarker : '\n' ∉ endMarker := by decide

theorem startMarker_head : startMarker = '[' :: startMarker.tail := by decide

theorem endMarker_head : endMarker = ']' :: endMarker.tail := by decide

theorem endMarker_reverse_head : endMarker.reverse = ']' :: endMarker.reverse.tail := by
  decide

theorem isWs_lbracket : isWs '[' = false := by decide

theorem isWs_newline : isWs '\n' = true := by decide

theorem length_dropWhile_le' (p : Char → Bool) (l : List Char) :
    (l.dropWhile p).length ≤ l.length := by
  induction l with
  | nil => simp
  | cons c rest ih =>
    rw [List.dropWhile_cons]
    by_cases h : p c = true
    · rw [if_pos h]
      exact Nat.le_succ_of_le ih
    · rw [if_neg h]

theorem mem_takeWhile_ws {l : List Char} {c : Char} (h : c ∈ l.takeWhile isWs) :
    isWs c = true := by
  induction l with
  | nil => simp [List.takeWhile] at h
  | cons a rest ih =>
    rw [List.takeWhile_cons] at h
    by_cases ha : isWs a = true
    · rw [if_pos ha] at h
      rcases List.mem_cons.1 h with rfl | h
      · exact ha
      · exact ih h
    · rw [if_neg ha] at h
      simp at h

theorem dropWhile_head_false {l z : List Char} {c : Char}
    (h : l.dropWhile isWs = c :: z) : isWs c = false := by
  induction l with
  | nil => simp at h
  | cons a rest ih =>
    rw [List.dropWhile_cons] at h
    by_cases ha : isWs a = true
    · rw [if_pos ha] at h
      exact ih h
    · rw [if_neg ha] at h
      obtain ⟨rfl, _⟩ := List.cons_eq_cons.1 h
      simpa using ha

theorem dropWhile_of_all_ws {l : List Char} (h : IsAllWs l) :
    l.dropWhile isWs = [] := by
  induction l with
  | nil => rfl
  | cons a rest ih =>
    rw [List.dropWhile_cons, if_pos (h a (List.mem_cons_self a rest))]
    exact ih fun c hc => h c (List.mem_cons_of_mem a hc)

theorem isAllWs_append {a b : List Char} (ha : IsAllWs a) (hb : IsAllWs b) :
    IsAllWs (a ++ b) := by
  intro c hc
  rcases List.mem_append.1 hc with h | h
  · exact ha c h
  · exact hb c h

theorem isAllWs_of_append_left {a b : List Char} (h : IsAllWs (a ++ b)) : IsAllWs a :=
  fun c hc => h c (List.mem_append.2 (Or.inl hc))

theorem isAllWs_of_append_right {a b : List Char} (h : IsAllWs (a ++ b)) : IsAllWs b :=
  fun c hc => h c (List.mem_append.2 (Or.inr hc))

/-! ### C1 groundwork: drain unfolding -/

theorem drainF_congr : ∀ (f₁ : Nat) (s : List Char) (f₂ : Nat),
    s.length < f₁ → s.length < f₂ → drainF f₁ s = drainF f₂ s := by
  intro f₁
  induction f₁ with
  | zero => intro s f₂ h; omega
  | succ f₁' ih =>
    intro s f₂ h1 h2
    cases f₂ with
    | zero => omega
    | succ f₂' =>
      simp only [drainF]
      cases hsm : splitFirst startMarker s with
      | none => rfl
      | some pr =>
        obtain ⟨pre, rest⟩ := pr
        simp only []
        cases hem : splitFirst endMarker rest with
        | none => rfl
        | some ct =>
          obtain ⟨content, tail⟩ := ct
          simp only []
          by_cases hc : content = []
          · rw [if_pos hc, if_pos hc]
          · rw [if_neg hc, if_neg hc]
            have hrest : rest.length < s.length :=
              splitFirst_some_length startMarker_ne_nil hsm
            have htail : tail.length < rest.length :=
              splitFirst_some_length endMarker_ne_nil hem
            have hy : (tail.dropWhile isWs).length < s.length :=
              lt_of_le_of_lt (length_dropWhile_le' isWs tail) (htail.trans hrest)
            rw [ih (tail.dropWhile isWs) f₂' (by omega) (by omega)]

theorem drain_no_sm {s : List Char} (h : splitFirst startMarker s = none) :
    drain s = ⟨[], s, false⟩ := by
  simp [drain, drainF, h]

theorem drain_no_em {s pre rest : List Char}
    (h1 : splitFirst startMarker s = some (pre, rest))
    (h2 : splitFirst endMarker rest = none) : drain s = ⟨[], s, false⟩ := by
  simp [drain, drainF, h1, h2]

theorem drain_protocol_err {s pre rest tail : List Char}
    (h1 : splitFirst startMarker s = some (pre, rest))
    (h2 : splitFirst endMarker rest = some ([], tail)) : drain s = ⟨[], s, true⟩ := by
  simp [drain, drainF, h1, h2]

theorem drain_step {s pre rest content tail : List Char}
    (h1 : splitFirst startMarker s = some (pre, rest))
    (h2 : splitFirst endMarker rest = some (content, tail))
    (hc : content ≠ []) :
    drain s = ⟨jsonParse content :: (drain (tail.dropWhile isWs)).msgs,
               (drain (tail.dropWhile isWs)).rest,
               (drain (tail.dropWhile isWs)).err⟩ := by
  have hrest : rest.length < s.length :=
    splitFirst_some_length startMarker_ne_nil h1
  have htail : tail.length < rest.length :=
    splitFirst_some_length endMarker_ne_nil h2
  have hy : (tail.dropWhile isWs).length < s.length :=
    lt_of_le_of_lt (length_dropWhile_le' isWs tail) (htail.trans hrest)
  have hcongr : drainF s.length (tail.dropWhile isWs) =
      drainF ((tail.dropWhile isWs).length + 1) (tail.dropWhile isWs) :=
    drainF_congr s.length (tail.dropWhile isWs) ((tail.dropWhile isWs).length + 1)
      hy (by omega)
  show drainF (s.length + 1) s = _
  rw [drainF]
  simp only [h1, h2, if_neg hc]
  rw [hcongr]
  rfl

/-! ### C1 groundwork: where the markers can and cannot occur -/

theorem no_endMarker_in_payload {p : List Char} (hp : goodPayload p) :
    ∀ a b, p = a ++ endMarker ++ b → False := by
  intro a b hab
  have h0 := splitFirst_none_sound hp.1 a (endMarker ++ b) (by simpa using hab)
  rw [isPre_self_append] at h0
  cases h0

/-- The end marker does not occur anywhere inside the frame content
`'\n' ++ p ++ '\n'` (it contains no newline, and `p` is clean). -/
theorem occur_content_false {p : List Char} (hp : goodPayload p) :
    ∀ a b, (('\n' :: p) ++ ['\n']) = (a ++ endMarker) ++ b → False := by
  intro a b hab
  cases a with
  | nil =>
    have hab2 : '\n' :: (p ++ ['\n']) = endMarker ++ b := by simpa using hab
    rw [endMarker_head, List.cons_append] at hab2
    exact absurd (List.cons_eq_cons.1 hab2).1 (by decide)
  | cons a0 a' =>
    have hab2 : '\n' :: (p ++ ['\n']) = a0 :: ((a' ++ endMarker) ++ b) := by
      simpa [List.append_assoc] using hab
    obtain ⟨ha0, hab'⟩ := List.cons_eq_cons.1 hab2
    rcases List.append_eq_append_iff.1 hab' with ⟨e, he1, he2⟩ | ⟨e, he1, he2⟩
    · -- a' ++ endMarker = p ++ e, ['\n'] = e ++ b
      cases e with
      | nil =>
        rw [List.append_nil] at he1
        exact no_endMarker_in_payload hp a' [] (by rw [List.append_nil]; exact he1.symm)
      | cons e0 e' =>
        obtain ⟨he0, he2'⟩ := List.cons_eq_cons.1 he2
        obtain ⟨rfl, rfl⟩ : e' = [] ∧ b = [] := by
          constructor
          · cases e' with
            | nil => rfl
            | cons x xs => simp at he2'
          · cases e' with
            | nil => simpa using he2'
            | cons x xs => simp at he2'
        rw [← he0] at he1
        rcases List.append_eq_append_iff.1 he1 with ⟨g, hg1, hg2⟩ | ⟨g, hg1, hg2⟩
        · -- p = a' ++ g, endMarker = g ++ ['\n']
          have : '\n' ∈ endMarker := by
            rw [hg2]
            exact List.mem_append.2 (Or.inr (List.mem_cons_self _ _))
          exact newline_not_mem_endMarker this
        · -- a' = p ++ g, ['\n'] = g ++ endMarker
          cases g with
          | nil =>
            have : '\n' ∈ endMarker := by
              rw [← List.nil_append endMarker, ← hg2]
              exact List.mem_cons_self _ _
            exact newline_not_mem_endMarker this
          | cons g0 g' =>
            obtain ⟨-, hg2'⟩ := List.cons_eq_cons.1 hg2
            have : endMarker = [] :=
              (List.append_eq_nil.1 (by simpa using hg2'.symm)).2
            exact endMarker_ne_nil this
    · -- p = (a' ++ endMarker) ++ e, b = e ++ ['\n']
      exact no_endMarker_in_payload hp a' e he1

/-- The end marker occurs in `'\n' ++ p ++ '\n' ++ endMarker` only at
its designated final position. -/
theorem occur_early_false {p : List Char} (hp : goodPayload p) :
    ∀ a y, (('\n' :: p) ++ ('\n' :: endMarker)) = (a ++ endMarker) ++ y → y ≠ [] →
      False := by
  intro a y hab hy
  cases a with
  | nil =>
    have hab2 : '\n' :: (p ++ ('\n' :: endMarker)) = endMarker ++ y := by simpa using hab
    rw [endMarker_head, List.cons_append] at hab2
    exact absurd (List.cons_eq_cons.1 hab2).1 (by decide)
  | cons a0 a' =>
    have hab2 : '\n' :: (p ++ ('\n' :: endMarker)) = a0 :: ((a' ++ endMarker) ++ y) := by
      simpa [List.append_assoc] using hab
    obtain ⟨ha0, hab'⟩ := List.cons_eq_cons.1 hab2
    rcases List.append_eq_append_iff.1 hab' with ⟨e, he1, he2⟩ | ⟨e, he1, he2⟩
    · -- a' ++ endMarker = p ++ e, '\n' :: endMarker = e ++ y
      cases e with
      | nil =>
        rw [List.append_nil] at he1
        exact no_endMarker_in_payload hp a' [] (by rw [List.append_nil]; exact he1.symm)
      | cons e0 e' =>
        obtain ⟨he0, he2'⟩ := List.cons_eq_cons.1 he2
        rw [← he0] at he1
        rcases List.append_eq_append_iff.1 he1 with ⟨g, hg1, hg2⟩ | ⟨g, hg1, hg2⟩
        · -- p = a' ++ g, endMarker = g ++ ('\n' :: e')
          have : '\n' ∈ endMarker := by
            rw [hg2]
            exact List.mem_append.2 (Or.inr (List.mem_cons_self _ _))
          exact newline_not_mem_endMarker this
        · -- a' = p ++ g, '\n' :: e' = g ++ endMarker
          cases g with
          | nil =>
            have : '\n' ∈ endMarker := by
              rw [← List.nil_append endMarker, ← hg2]
              exact List.mem_cons_self _ _
            exact newline_not_mem_endMarker this
          | cons g0 g' =>
            obtain ⟨-, hg2'⟩ := List.cons_eq_cons.1 hg2
            -- e' = g' ++ endMarker, and endMarker = e' ++ y
            rw [hg2'] at he2'
            have hlen := congrArg List.length he2'
            simp at hlen
            exact hy (List.length_eq_zero.1 (by omega))
    · -- p = (a' ++ endMarker) ++ e, y = e ++ ('\n' :: endMarker)
      exact no_endMarker_in_payload hp a' e he1

/-! ### C1 groundwork: locating the markers in a frame -/

theorem getLast?_append_singleton (l : List Char) (c : Char) :
    (l ++ [c]).getLast? = some c := by
  induction l with
  | nil => rfl
  | cons a rest ih =>
    rw [List.cons_append, List.getLast?_cons, ih]
    cases rest <;> rfl

theorem splitFirst_nil_of_ne {pat : List Char} (hp : pat ≠ []) :
    splitFirst pat [] = none := by
  cases pat with
  | nil => exact absurd rfl hp
  | cons p0 pt => rfl

/-- On a buffer of the form `allWs ++ startMarker ++ r`, the regex finds
the start marker exactly after the whitespace (no occurrence can begin
inside whitespace, since the marker starts with `[`). -/
theorem sm_split {w : List Char} (hw : IsAllWs w) (r : List Char) :
    splitFirst startMarker ((w ++ startMarker) ++ r) = some (w, r) := by
  apply splitFirst_first_occurrence startMarker_ne_nil
  intro a b hab hb
  by_contra hcon
  have htrue : isPre startMarker ((b ++ startMarker) ++ r) = true := by
    cases h : isPre startMarker ((b ++ startMarker) ++ r) with
    | true => rfl
    | false => exact absurd h hcon
  cases b with
  | nil => exact hb rfl
  | cons b0 b' =>
    have hcons : (((b0 :: b') ++ startMarker) ++ r) = b0 :: ((b' ++ startMarker) ++ r) := by
      simp
    rw [hcons] at htrue
    obtain ⟨pt, hpt⟩ := isPre_cons_head htrue startMarker_ne_nil
    have hb0 : b0 = '[' := by
      rw [startMarker_head] at hpt
      exact ((List.cons_eq_cons.1 hpt).1).symm
    have : isWs b0 = true := hw b0 (by rw [hab]; simp)
    rw [hb0, isWs_lbracket] at this
    cases this

/-- A buffer consisting only of whitespace contains no start marker. -/
theorem sm_none_allws {x : List Char} (hx : IsAllWs x) :
    splitFirst startMarker x = none := by
  apply splitFirst_none_of_no_suffix startMarker_ne_nil
  intro a b hab
  by_contra hcon
  have htrue : isPre startMarker b = true := by
    cases h : isPre startMarker b with
    | true => rfl
    | false => exact absurd h hcon
  cases b with
  | nil =>
    rw [startMarker_head] at htrue
    cases htrue
  | cons b0 b' =>
    obtain ⟨pt, hpt⟩ := isPre_cons_head htrue startMarker_ne_nil
    have hb0 : b0 = '[' := by
      rw [startMarker_head] at hpt
      exact ((List.cons_eq_cons.1 hpt).1).symm
    have : isWs b0 = true := hx b0 (by rw [hab]; simp)
    rw [hb0, isWs_lbracket] at this
    cases this

/-- Inside a frame, the first end-marker occurrence after the start
marker is the designated one: the content captured for
`'\n' ++ p ++ '\n' ++ endMarker ++ t` is exactly `'\n' ++ p ++ '\n'`. -/
theorem em_split {p : List Char} (hp : goodPayload p) (t : List Char) :
    splitFirst endMarker (((('\n' :: p) ++ ['\n']) ++ endMarker) ++ t) =
      some (('\n' :: p) ++ ['\n'], t) := by
  apply splitFirst_first_occurrence endMarker_ne_nil
  intro a b hab hb
  by_contra hcon
  have htrue : isPre endMarker ((b ++ endMarker) ++ t) = true := by
    cases h : isPre endMarker ((b ++ endMarker) ++ t) with
    | true => rfl
    | false => exact absurd h hcon
  obtain ⟨u, hu⟩ := (isPre_iff _ _).1 htrue
  have hu' : b ++ (endMarker ++ t) = endMarker ++ u := by
    rw [← List.append_assoc]; exact hu
  rcases List.append_eq_append_iff.1 hu' with ⟨g, hg1, hg2⟩ | ⟨g, hg1, hg2⟩
  · -- endMarker = b ++ g: the nonempty b ends with the final '\n' of the content
    obtain ⟨b', d, rfl⟩ : ∃ b' d, b = b' ++ [d] := by
      rcases List.eq_nil_or_concat b with rfl | ⟨b', d, hbd⟩
      · exact absurd rfl hb
      · exact ⟨b', d, by rw [hbd, List.concat_eq_append]⟩
    have hd : d = '\n' := by
      have h1 : (('\n' :: p) ++ ['\n']).getLast? = some '\n' :=
        getLast?_append_singleton ('\n' :: p) '\n'
      have h2 : (('\n' :: p) ++ ['\n']).getLast? = some d := by
        rw [hab, ← List.append_assoc]
        exact getLast?_append_singleton (a ++ b') d
      rw [h1] at h2
      exact (Option.some_inj.1 h2).symm
    have : '\n' ∈ endMarker := by
      rw [hg1, hd]
      exact List.mem_append.2 (Or.inl (List.mem_append.2
        (Or.inr (List.mem_cons_self _ _))))
    exact newline_not_mem_endMarker this
  · -- b = endMarker ++ g: an occurrence inside the content itself
    rw [hg1] at hab
    exact occur_content_false hp a g (by rw [hab, List.append_assoc])

/-- A proper prefix of `'\n' ++ p ++ '\n' ++ endMarker` contains no
complete end marker. -/
theorem em_none_in_partial {p : List Char} (hp : goodPayload p) :
    ∀ Z D, Z ++ D = (('\n' :: p) ++ ('\n' :: endMarker)) → D ≠ [] →
      splitFirst endMarker Z = none := by
  intro Z D hZD hD
  apply splitFirst_none_of_no_suffix endMarker_ne_nil
  intro a b hab
  by_contra hcon
  have htrue : isPre endMarker b = true := by
    cases h : isPre endMarker b with
    | true => rfl
    | false => exact absurd h hcon
  obtain ⟨u, hu⟩ := (isPre_iff _ _).1 htrue
  apply occur_early_false hp a (u ++ D)
  · rw [← hZD, hab, hu]
    simp [List.append_assoc]
  · intro h
    exact hD (List.append_eq_nil.1 h).2

/-! ### C1 groundwork: parsing the captured content back to the payload -/

/-- `JSON.parse` of the captured content `'\n' ++ p ++ '\n'` recovers the
serialized payload `p`: the only whitespace to strip is the two framing
newlines, since serialized JSON neither starts nor ends with whitespace. -/
theorem jsonParse_content {p : List Char} (hp : goodPayload p) :
    jsonParse (('\n' :: p) ++ ['\n']) = p := by
  obtain ⟨-, hne, hhead, hlast⟩ := hp
  obtain ⟨p0, pt, rfl⟩ : ∃ p0 pt, p = p0 :: pt := by
    cases p with
    | nil => exact absurd rfl hne
    | cons p0 pt => exact ⟨p0, pt, rfl⟩
  have hp0 : isWs p0 = false := by
    simp only [List.head?] at hhead
    simpa using hhead
  obtain ⟨q, d, hqd⟩ : ∃ q d, p0 :: pt = q ++ [d] := by
    rcases List.eq_nil_or_concat (p0 :: pt) with h | ⟨q, d, h⟩
    · cases h
    · exact ⟨q, d, by rw [h, List.concat_eq_append]⟩
  have hd : isWs d = false := by
    rw [hqd, getLast?_append_singleton] at hlast
    simpa using hlast
  rw [jsonParse, trimWs]
  have step1 : (('\n' :: (p0 :: pt)) ++ ['\n']).dropWhile isWs =
      (p0 :: pt) ++ ['\n'] := by
    rw [List.cons_append, List.dropWhile_cons, if_pos isWs_newline,
      List.cons_append, List.dropWhile_cons, if_neg (by rw [hp0]; simp)]
  rw [step1]
  have step2 : ((p0 :: pt) ++ ['\n']).reverse = '\n' :: (p0 :: pt).reverse := by
    simp
  rw [step2, List.dropWhile_cons, if_pos isWs_newline]
  have step3 : (p0 :: pt).reverse.dropWhile isWs = (p0 :: pt).reverse := by
    rw [hqd]
    have : (q ++ [d]).reverse = d :: q.reverse := by simp
    rw [this, List.dropWhile_cons, if_neg (by rw [hd]; simp)]
  rw [step3, List.reverse_reverse]

/-! ### C1 groundwork: no dispatch from a partial frame -/

/-- A proper prefix of `allWs ++ frame-core` produces no match at all:
nothing is consumed, nothing dispatched, no error. -/
theorem drain_partial_no_match {p : List Char} (hp : goodPayload p)
    {w : List Char} (hw : IsAllWs w) :
    ∀ X D, X ++ D = w ++ frameCore p → D ≠ [] → drain X = ⟨[], X, false⟩ := by
  intro X D hXD hD
  rcases List.append_eq_append_iff.1 hXD with ⟨e, he1, he2⟩ | ⟨e, he1, he2⟩
  · -- w = X ++ e: X is all whitespace
    have hX : IsAllWs X := isAllWs_of_append_left (he1 ▸ hw)
    exact drain_no_sm (sm_none_allws hX)
  · -- X = w ++ e, frameCore p = e ++ D
    have hfc : startMarker ++ (('\n' :: p) ++ ('\n' :: endMarker)) = e ++ D := by
      rw [← he2, frameCore]
      simp [List.append_assoc]
    rcases List.append_eq_append_iff.1 hfc with ⟨g, hg1, hg2⟩ | ⟨g, hg1, hg2⟩
    · -- e = startMarker ++ g, the content part g is a proper prefix
      have hX : X = (w ++ startMarker) ++ g := by
        rw [he1, hg1, List.append_assoc]
      have hsm : splitFirst startMarker X = some (w, g) := by
        rw [hX]; exact sm_split hw g
      have hem : splitFirst endMarker g = none :=
        em_none_in_partial hp g D hg2.symm hD
      exact drain_no_em hsm hem
    · -- startMarker = e ++ g with g the unseen part of the marker
      cases g with
      | nil =>
        rw [List.append_nil] at hg1
        have hsm : splitFirst startMarker X = some (w, []) := by
          rw [he1, ← hg1]
          have := sm_split hw ([] : List Char)
          rwa [List.append_nil] at this
        exact drain_no_em hsm (splitFirst_nil_of_ne endMarker_ne_nil)
      | cons g0 g' =>
        have helen : e.length < startMarker.length := by
          have := congrArg List.length hg1
          simp at this
          omega
        have hsm : splitFirst startMarker X = none := by
          apply splitFirst_none_of_no_suffix startMarker_ne_nil
          intro a b hab
          by_contra hcon
          have htrue : isPre startMarker b = true := by
            cases h : isPre startMarker b with
            | true => rfl
            | false => exact absurd h hcon
          have hXe : a ++ b = w ++ e := by rw [← hab, he1]
          rcases List.append_eq_append_iff.1 hXe with ⟨h', hh1, hh2⟩ | ⟨h', hh1, hh2⟩
          · -- w = a ++ h', b = h' ++ e
            cases h' with
            | nil =>
              rw [List.nil_append] at hh2
              have := isPre_length_le htrue
              rw [hh2] at this
              omega
            | cons h0 h'' =>
              rw [List.cons_append] at hh2
              subst hh2
              obtain ⟨pt, hpt⟩ := isPre_cons_head htrue startMarker_ne_nil
              have hh0 : h0 = '[' := by
                rw [startMarker_head] at hpt
                exact ((List.cons_eq_cons.1 hpt).1).symm
              have : isWs h0 = true := hw h0 (by rw [hh1]; simp)
              rw [hh0, isWs_lbracket] at this
              cases this
          · -- a = w ++ h', e = h' ++ b
            have := isPre_length_le htrue
            have hble : b.length ≤ e.length := by
              have := congrArg List.length hh2
              simp at this
              omega
            omega
        exact drain_no_sm hsm

/-! ### C1 groundwork: whitespace bookkeeping between frames -/

/-- Consuming the `\s*` after a dispatched frame keeps the residual
stream in the canonical shape `whitespace ++ remaining frames`: the
whitespace swallowed so far and the whitespace still to come rebalance. -/
theorem dropWhile_ws_transfer {rest2 R wsA Z : List Char}
    (heq : rest2 ++ R = wsA ++ Z) (hws : IsAllWs wsA)
    (hZ : Z = [] ∨ ∃ c zz, Z = c :: zz ∧ isWs c = false) :
    ∃ w', IsAllWs w' ∧ (rest2.dropWhile isWs) ++ R = w' ++ Z := by
  have hdec : rest2.takeWhile isWs ++ rest2.dropWhile isWs = rest2 :=
    List.takeWhile_append_dropWhile isWs rest2
  cases hz : rest2.dropWhile isWs with
  | nil =>
    have hallrest : IsAllWs rest2 := by
      intro c hc
      rw [← hdec, hz, List.append_nil] at hc
      exact mem_takeWhile_ws hc
    rcases List.append_eq_append_iff.1 heq with ⟨e, h1, h2⟩ | ⟨e, h1, h2⟩
    · exact ⟨e, isAllWs_of_append_right (h1 ▸ hws), by simpa using h2⟩
    · cases e with
      | nil =>
        refine ⟨[], fun c hc => by simp at hc, ?_⟩
        rw [List.nil_append, List.nil_append]
        simpa using h2.symm
      | cons e0 e' =>
        have he0 : isWs e0 = true := hallrest e0 (by rw [h1]; simp)
        rcases hZ with rfl | ⟨c, zz, rfl, hc⟩
        · simp at h2
        · obtain ⟨rfl, -⟩ := List.cons_eq_cons.1 h2
          rw [he0] at hc
          cases hc
  | cons z0 zt =>
    have hz0 : isWs z0 = false := dropWhile_head_false hz
    have heq2 : rest2.takeWhile isWs ++ ((z0 :: zt) ++ R) = wsA ++ Z := by
      rw [← List.append_assoc, ← hz, hdec]
      exact heq
    rcases List.append_eq_append_iff.1 heq2 with ⟨e, h1, h2⟩ | ⟨e, h1, h2⟩
    · cases e with
      | nil =>
        refine ⟨[], fun c hc => by simp at hc, ?_⟩
        simpa using h2
      | cons e0 e' =>
        have he0 : isWs e0 = true := isAllWs_of_append_right (h1 ▸ hws) e0
          (List.mem_cons_self _ _)
        rw [List.cons_append] at h2
        obtain ⟨rfl, -⟩ := List.cons_eq_cons.1 h2
        rw [he0] at hz0
        cases hz0
    · cases e with
      | nil =>
        refine ⟨[], fun c hc => by simp at hc, ?_⟩
        simpa using h2.symm
      | cons e0 e' =>
        have he0 : isWs e0 = true := by
          apply @mem_takeWhile_ws rest2 e0
          rw [h1]; simp
        rcases hZ with rfl | ⟨c, zz, hzz, hc⟩
        · simp at h2
        · rw [hzz, List.cons_append] at h2
          obtain ⟨rfl, -⟩ := List.cons_eq_cons.1 h2
          rw [he0] at hc
          cases hc

theorem wsSep_allws (ps : List (List Char)) : IsAllWs (wsSep ps) := by
  cases ps with
  | nil =>
    intro c hc
    simp [wsSep] at hc
    rw [hc]; exact isWs_newline
  | cons p ps' =>
    intro c hc
    simp [wsSep] at hc
    rw [hc]; exact isWs_newline

theorem chain_shape (ps : List (List Char)) :
    chain ps = [] ∨ ∃ zz, chain ps = '[' :: zz ∧ isWs '[' = false := by
  cases ps with
  | nil => exact Or.inl rfl
  | cons p ps' =>
    refine Or.inr ⟨startMarker.tail ++ ('\n' :: p) ++ ('\n' :: endMarker) ++
      wsSep ps' ++ chain ps', ?_, isWs_lbracket⟩
    rw [chain, frameCore]
    rw [startMarker_head]
    simp

/-! ### C1 groundwork: the leftover of the dispatch loop is stable -/

theorem drain_rest_stable_aux : ∀ (n : Nat) (s : List Char), s.length ≤ n →
    (drain s).err = false →
    drain ((drain s).rest) = ⟨[], (drain s).rest, false⟩ := by
  intro n
  induction n with
  | zero =>
    intro s hlen _herr
    obtain rfl : s = [] := List.length_eq_zero.1 (Nat.le_zero.1 hlen)
    have h0 : drain [] = ⟨[], [], false⟩ :=
      drain_no_sm (splitFirst_nil_of_ne startMarker_ne_nil)
    rw [h0]
    exact h0
  | succ n ih =>
    intro s hlen herr
    cases hsm : splitFirst startMarker s with
    | none =>
      have h := drain_no_sm hsm
      rw [h]
      exact h
    | some pr =>
      obtain ⟨pre, rest⟩ := pr
      cases hem : splitFirst endMarker rest with
      | none =>
        have h := drain_no_em hsm hem
        rw [h]
        exact h
      | some ct =>
        obtain ⟨content, tail⟩ := ct
        by_cases hc : content = []
        · subst hc
          rw [drain_protocol_err hsm hem] at herr
          cases herr
        · have hstep := drain_step hsm hem hc
          have hrest : rest.length < s.length :=
            splitFirst_some_length startMarker_ne_nil hsm
          have htail : tail.length < rest.length :=
            splitFirst_some_length endMarker_ne_nil hem
          have hY : (tail.dropWhile isWs).length ≤ n := by
            have := length_dropWhile_le' isWs tail
            omega
          have herrY : (drain (tail.dropWhile isWs)).err = false := by
            rw [hstep] at herr
            exact herr
          have := ih (tail.dropWhile isWs) hY herrY
          rw [hstep]
          exact this

theorem drain_rest_stable {s : List Char} (herr : (drain s).err = false) :
    drain ((drain s).rest) = ⟨[], (drain s).rest, false⟩ :=
  drain_rest_stable_aux s.length s (Nat.le_refl _) herr

/-! ### C1: the dispatch loop on a prefix of a frame chain -/

theorem startMarker_length_pos : 0 < startMarker.length := by decide

/-- Running the dispatch loop on any prefix `X` of
`whitespace ++ chain ps` dispatches exactly the payloads whose frames are
complete inside `X`, throws no protocol error, and leaves a residual
that is again `whitespace ++ chain (remaining payloads)` once the
undelivered part `R` is appended. -/
theorem drain_chain : ∀ (n : Nat) (X : List Char), X.length ≤ n →
    ∀ (w : List Char) (ps : List (List Char)) (R : List Char),
    IsAllWs w → (∀ p ∈ ps, goodPayload p) → X ++ R = w ++ chain ps →
    ∃ k w', (drain X).msgs = ps.take k ∧ (drain X).err = false ∧ IsAllWs w' ∧
      (drain X).rest ++ R = w' ++ chain (ps.drop k) := by
  intro n
  induction n with
  | zero =>
    intro X hlen w ps R hw _hgood heq
    obtain rfl : X = [] := List.length_eq_zero.1 (Nat.le_zero.1 hlen)
    have h0 : drain [] = ⟨[], [], false⟩ :=
      drain_no_sm (splitFirst_nil_of_ne startMarker_ne_nil)
    refine ⟨0, w, ?_, ?_, hw, ?_⟩
    · rw [h0]; rfl
    · rw [h0]
    · rw [h0]
      simpa using heq
  | succ n ih =>
    intro X hlen w ps R hw hgood heq
    cases ps with
    | nil =>
      rw [chain, List.append_nil] at heq
      have hX : IsAllWs X := fun c hc => hw c (by
        rw [← heq]; exact List.mem_append.2 (Or.inl hc))
      have hR : IsAllWs R := fun c hc => hw c (by
        rw [← heq]; exact List.mem_append.2 (Or.inr hc))
      have h0 : drain X = ⟨[], X, false⟩ := drain_no_sm (sm_none_allws hX)
      refine ⟨0, X ++ R, ?_, ?_, isAllWs_append hX hR, ?_⟩
      · rw [h0]; rfl
      · rw [h0]
      · rw [h0]
        show X ++ R = (X ++ R) ++ chain []
        rw [chain, List.append_nil]
    | cons p ps' =>
      have hgp : goodPayload p := hgood p (List.mem_cons_self _ _)
      have hchain : chain (p :: ps') = frameCore p ++ (wsSep ps' ++ chain ps') := by
        rw [chain]; simp [List.append_assoc]
      have heq2 : X ++ R = (w ++ frameCore p) ++ (wsSep ps' ++ chain ps') := by
        rw [heq, hchain]; simp [List.append_assoc]
      have hstepcase : ∀ X', X = (w ++ frameCore p) ++ X' →
          X' ++ R = wsSep ps' ++ chain ps' →
          ∃ k w', (drain X).msgs = (p :: ps').take k ∧ (drain X).err = false ∧
            IsAllWs w' ∧ (drain X).rest ++ R = w' ++ chain ((p :: ps').drop k) := by
        intro X' hXeq hXR
        have hXshape : X =
            (w ++ startMarker) ++ (((('\n' :: p) ++ ['\n']) ++ endMarker) ++ X') := by
          rw [hXeq, frameCore]
          simp [List.append_assoc]
        have hsm : splitFirst startMarker X =
            some (w, ((('\n' :: p) ++ ['\n']) ++ endMarker) ++ X') := by
          rw [hXshape]; exact sm_split hw _
        have hem := em_split hgp X'
        have hcne : ('\n' :: p) ++ ['\n'] ≠ [] := by simp
        have hstep := drain_step hsm hem hcne
        have hZ : wsSep ps' ++ chain ps' = wsSep ps' ++ chain ps' := rfl
        obtain ⟨w'', hw'', hYR⟩ := dropWhile_ws_transfer hXR (wsSep_allws ps')
          (by
            rcases chain_shape ps' with h | ⟨zz, hzz, hnw⟩
            · exact Or.inl h
            · exact Or.inr ⟨'[', zz, hzz, hnw⟩)
        have hlenY : (X'.dropWhile isWs).length ≤ n := by
          have h2 := congrArg List.length hXeq
          simp [frameCore] at h2
          have h3 := length_dropWhile_le' isWs X'
          have h4 := startMarker_length_pos
          omega
        obtain ⟨k', w₃, hm, he, hw₃, hr⟩ := ih (X'.dropWhile isWs) hlenY w'' ps' R
          hw'' (fun q hq => hgood q (List.mem_cons_of_mem _ hq)) hYR
        refine ⟨k' + 1, w₃, ?_, ?_, hw₃, ?_⟩
        · simp only [hstep]
          rw [jsonParse_content hgp, hm]
          rfl
        · simp only [hstep]
          exact he
        · simp only [hstep]
          rw [hr]
          rfl
      rcases List.append_eq_append_iff.1 heq2 with ⟨e, h1, h2⟩ | ⟨e, h1, h2⟩
      · cases e with
        | nil =>
          apply hstepcase []
          · rw [List.append_nil]
            rw [List.append_nil] at h1
            exact h1.symm
          · rw [List.nil_append]
            rw [List.nil_append] at h2
            exact h2
        | cons e0 e' =>
          have hnm := drain_partial_no_match hgp hw X (e0 :: e') h1.symm (by simp)
          refine ⟨0, w, ?_, ?_, hw, ?_⟩
          · simp only [hnm]
            rfl
          · simp only [hnm]
          · simp only [hnm]
            show X ++ R = w ++ chain (p :: ps')
            rw [hchain]
            rw [heq, hchain]
      · exact hstepcase e h1 h2.symm

/-! ### C1: chunked delivery -/

theorem feedAll_chain : ∀ (chunks : List (List Char)) (st w : List Char)
    (ps : List (List Char)),
    IsAllWs w → (∀ p ∈ ps, goodPayload p) →
    drain st = ⟨[], st, false⟩ →
    st ++ chunks.flatten = w ++ chain ps →
    (feedAll st chunks).msgs = ps ∧ (feedAll st chunks).err = false := by
  intro chunks
  induction chunks with
  | nil =>
    intro st w ps hw hgood hstable heq
    rw [List.flatten_nil, List.append_nil] at heq
    cases ps with
    | nil => exact ⟨rfl, rfl⟩
    | cons p ps' =>
      exfalso
      have hgp : goodPayload p := hgood p (List.mem_cons_self _ _)
      have hshape : st =
          (w ++ startMarker) ++ (((('\n' :: p) ++ ['\n']) ++ endMarker) ++
            (wsSep ps' ++ chain ps')) := by
        rw [heq, chain, frameCore]
        simp [List.append_assoc]
      have hsm : splitFirst startMarker st =
          some (w, ((('\n' :: p) ++ ['\n']) ++ endMarker) ++
            (wsSep ps' ++ chain ps')) := by
        rw [hshape]; exact sm_split hw _
      have hem := em_split hgp (wsSep ps' ++ chain ps')
      have hstep := drain_step hsm hem (by simp)
      rw [hstable] at hstep
      have := congrArg DrainResult.msgs hstep
      simp at this
  | cons c cs ihc =>
    intro st w ps hw hgood hstable heq
    have heq2 : (st ++ c) ++ cs.flatten = w ++ chain ps := by
      rw [← heq, List.flatten_cons]
      simp [List.append_assoc]
    obtain ⟨k, w', hm, he, hw', hr⟩ := drain_chain (st ++ c).length (st ++ c)
      (Nat.le_refl _) w ps cs.flatten hw hgood heq2
    have hstable' : drain ((drain (st ++ c)).rest) =
        ⟨[], (drain (st ++ c)).rest, false⟩ := drain_rest_stable he
    obtain ⟨hm', he'⟩ := ihc (drain (st ++ c)).rest w' (ps.drop k) hw'
      (fun q hq => hgood q (List.mem_of_mem_drop hq)) hstable' hr
    constructor
    · show (drain (st ++ c)).msgs ++ (feedAll (drain (st ++ c)).rest cs).msgs = ps
      rw [hm, hm']
      exact List.take_append_drop k ps
    · show ((drain (st ++ c)).err || (feedAll (drain (st ++ c)).rest cs).err) = false
      rw [he, he']
      rfl

theorem stream_eq_chain : ∀ (p : List Char) (ps : List (List Char)),
    ((p :: ps).map encode).flatten = '\n' :: chain (p :: ps) := by
  intro p ps
  induction ps generalizing p with
  | nil => simp [encode, chain, wsSep]
  | cons q ps' ih =>
    show encode p ++ ((q :: ps').map encode).flatten = _
    rw [ih q]
    rw [chain]
    show (('\n' :: frameCore p) ++ ['\n']) ++ ('\n' :: chain (q :: ps')) = _
    simp [wsSep, List.append_assoc]
    rw [show chain (p :: q :: ps') =
      (frameCore p ++ wsSep (q :: ps')) ++ chain (q :: ps') from rfl]
    simp [wsSep, List.append_assoc]

theorem isAllWs_newline : IsAllWs ['\n'] := by
  intro c hc
  simp at hc
  rw [hc]
  exact isWs_newline

theorem drain_nil : drain [] = ⟨[], [], false⟩ :=
  drain_no_sm (splitFirst_nil_of_ne startMarker_ne_nil)

/-- C1: the incremental framing codec is correct.
1. For every sequence of serialized payloads and every partition of the
   concatenation of their encoded frames into chunks delivered in order,
   the accumulated-buffer decoder dispatches exactly the payloads, in
   order, with no protocol error (`JSON.parse` on each dispatched content
   recovers the payload).
2. While the buffer matches a start marker without a following end
   marker, the loop consumes nothing and dispatches nothing.
3. One complete frame decodes back to its payload with an empty
   remaining buffer: `decode(encode(P)) = (P, "")`. -/
theorem framing_codec_correct :
    (∀ (ps chunks : List (List Char)),
      (∀ p ∈ ps, goodPayload p) →
      chunks.flatten = (ps.map encode).flatten →
      (feedAll [] chunks).msgs = ps ∧ (feedAll [] chunks).err = false)
    ∧ (∀ (s pre rest : List Char), splitFirst startMarker s = some (pre, rest) →
        splitFirst endMarker rest = none → drain s = ⟨[], s, false⟩)
    ∧ (∀ p, goodPayload p → drain (encode p) = ⟨[p], [], false⟩) := by
  refine ⟨?_, fun s pre rest h1 h2 => drain_no_em h1 h2, ?_⟩
  · intro ps chunks hgood hjoin
    cases ps with
    | nil =>
      apply feedAll_chain chunks [] [] []
      · intro c hc; simp at hc
      · intro p hp; simp at hp
      · exact drain_nil
      · simp only [List.map_nil, List.flatten_nil] at hjoin
        simp [hjoin, chain]
    | cons p ps' =>
      apply feedAll_chain chunks [] ['\n'] (p :: ps') isAllWs_newline hgood drain_nil
      rw [List.nil_append, hjoin, stream_eq_chain]
      rfl
  · intro p hp
    have hshape : encode p =
        (['\n'] ++ startMarker) ++ (((('\n' :: p) ++ ['\n']) ++ endMarker) ++ ['\n']) := by
      rw [encode, frameCore]
      simp [List.append_assoc]
    have hsm : splitFirst startMarker (encode p) =
        some (['\n'], ((('\n' :: p) ++ ['\n']) ++ endMarker) ++ ['\n']) := by
      rw [hshape]; exact sm_split isAllWs_newline _
    have hem := em_split hp ['\n']
    have hstep := drain_step hsm hem (by simp)
    have hY : (['\n'] : List Char).dropWhile isWs = [] := rfl
    rw [hY, drain_nil, jsonParse_content hp] at hstep
    exact hstep

/-- Witness for C1: the stream of two encoded frames (payloads `42` and
`[1,2]`) split at byte offset 30 — inside the first frame's end marker —
dispatches both payloads in order; the first chunk alone (start marker
present, end marker incomplete) consumes and dispatches nothing; and a
single complete frame round-trips with empty remainder. -/
theorem framing_codec_correct_witness :
    (feedAll [] [((encode ("42".toList)) ++ encode ("[1,2]".toList)).take 30,
                 ((encode ("42".toList)) ++ encode ("[1,2]".toList)).drop 30]).msgs =
      ["42".toList, "[1,2]".toList]
    ∧ (feedAll [] [((encode ("42".toList)) ++ encode ("[1,2]".toList)).take 30,
                   ((encode ("42".toList)) ++ encode ("[1,2]".toList)).drop 30]).err = false
    ∧ drain ((encode ("42".toList)).take 30) =
      ⟨[], (encode ("42".toList)).take 30, false⟩
    ∧ drain (encode ("42".toList)) = ⟨["42".toList], [], false⟩ := by
  have h1 := framing_codec_correct.1 ["42".toList, "[1,2]".toList]
    [((encode ("42".toList)) ++ encode ("[1,2]".toList)).take 30,
     ((encode ("42".toList)) ++ encode ("[1,2]".toList)).drop 30]
    (by decide) (by decide)
  have h2 := framing_codec_correct.2.1 ((encode ("42".toList)).take 30)
    ['\n'] (((encode ("42".toList)).take 30).drop 23) (by decide) (by decide)
  have h3 := framing_codec_correct.2.2 ("42".toList) (by decide)
  exact ⟨h1.1, h1.2, h2, h3⟩
